import Mathlib

/-!
Shallow embedding of the RL_Matching repository (files `environment.py` and
`online_matching_environment.py`): online bin-packing and online/stochastic
bipartite-matching gym environments.

Modelling conventions:
* Python `int` is `Int` (or `Nat` where the source value is provably a
  count/index that is never negative on any code path).
* Python lists are `List _`; reads and writes through a possibly negative
  index use `pyIndex` / `pySet`, which implement Python's negative-index
  wrap-around and return `none` where CPython raises `IndexError`.
* Python dicts are association lists (`alistGet` / `alistSet` / `alistDel`),
  which preserve insertion order exactly as CPython dicts do.
* A function that can raise an exception returns `Option _`; `none` means the
  call raised.  (A `raise` that happens after some attribute mutations
  discards those mutations in the model; no claim depends on the state of an
  object after an escaped exception.)
* Calls to `np.random.choice` / `np.random.shuffle` are modelled by explicit
  parameters carrying the drawn value (the next item size, the next online
  type, the dict key picked by `__update_bin_type_distribution_map`).
* Python floats (the `1 - time_remaining/time_horizon` entry of matching
  observations) are modelled as exact rationals `ℚ`.
* The cosmetic fields `episode_count` and `self.csv_file`, and the
  `print` diagnostics, have no semantic effect and are not modelled.
-/

/-! ## Python list primitives -/

/-- Python list read `l[i]`: non-negative indices are 0-based, negative
indices wrap around once (`l[-k]` is `l[len l - k]`), anything else raises
`IndexError` (`none`). -/
def pyIndex {α : Type} (l : List α) (i : Int) : Option α :=
  if 0 ≤ i then l[i.toNat]?
  else
    let j : Int := (l.length : Int) + i
    if 0 ≤ j then l[j.toNat]? else none

/-- Python list write `l[i] = v` with the same index semantics as `pyIndex`. -/
def pySet {α : Type} (l : List α) (i : Int) (v : α) : Option (List α) :=
  if 0 ≤ i then
    if i.toNat < l.length then some (l.set i.toNat v) else none
  else
    let j : Int := (l.length : Int) + i
    if 0 ≤ j then
      if j.toNat < l.length then some (l.set j.toNat v) else none
    else none

/-- Python `l[i].append v` for a list of lists. -/
def pyAppendAt {α : Type} (ll : List (List α)) (i : Int) (v : α) :
    Option (List (List α)) :=
  match pyIndex ll i with
  | none => none
  | some cur => pySet ll i (cur ++ [v])

/-! ## Python string primitives (kernel-reducible replacements for the
built-in `String` operations, needed because `String.splitOn` and string
comparison do not reduce in the kernel) -/

/-- Lexicographic comparison of char lists: exactly Python's `str <= str`
(code-point lexicographic order). -/
def charListLe : List Char → List Char → Bool
  | [], _ => true
  | _ :: _, [] => false
  | a :: as, b :: bs => if a < b then true else if b < a then false else charListLe as bs

/-- Python `a <= b` on strings. -/
def pyStrLe (a b : String) : Bool := charListLe a.data b.data

/-- Split a char list on the space character; Python `s.split(' ')`
semantics (empty input gives one empty field). -/
def splitCharsOnSpace : List Char → List (List Char)
  | [] => [[]]
  | c :: cs =>
    let r := splitCharsOnSpace cs
    if c = ' ' then [] :: r
    else
      match r with
      | [] => [[c]]
      | g :: gs => (c :: g) :: gs

/-- Python `s.split(' ')`. -/
def pySplitSpace (s : String) : List String :=
  (splitCharsOnSpace s.data).map (fun g => String.mk g)

/-- Python `' '.join parts`. -/
def pyJoinSpace (parts : List String) : String :=
  String.mk (String.intercalate " " parts).data

/-- Insert into a sorted list, keeping Python's stable ascending order. -/
def insertSorted (x : String) : List String → List String
  | [] => [x]
  | y :: ys => if pyStrLe x y then x :: y :: ys else y :: insertSorted x ys

/-- Python `list.sort()` on strings (any correct sort w.r.t. the total
lexicographic order yields the same list; insertion sort is used so that the
kernel can evaluate it). -/
def pySort (l : List String) : List String := l.foldr insertSorted []

/-! ## Python dict primitives (association lists, insertion-ordered) -/

/-- `d[k]` as an `Option` (`none` = key absent). -/
def alistGet {κ ν : Type} [DecidableEq κ] (d : List (κ × ν)) (k : κ) : Option ν :=
  match d.find? (fun p => decide (p.1 = k)) with
  | some p => some p.2
  | none => none

/-- `d[k] = v`: overwrite in place if the key exists (keeping its position),
otherwise append at the end — CPython dict semantics. -/
def alistSet {κ ν : Type} [DecidableEq κ] (d : List (κ × ν)) (k : κ) (v : ν) :
    List (κ × ν) :=
  if (d.find? (fun p => decide (p.1 = k))).isSome then
    d.map (fun p => if p.1 = k then (k, v) else p)
  else d ++ [(k, v)]

/-- `del d[k]`. -/
def alistDel {κ ν : Type} [DecidableEq κ] (d : List (κ × ν)) (k : κ) : List (κ × ν) :=
  d.filter (fun p => decide (¬ p.1 = k))

/-- `list(d.keys())`. -/
def alistKeys {κ ν : Type} (d : List (κ × ν)) : List κ := d.map Prod.fst

/-! ## Bin packing: state and constants (`environment.py`) -/

def BIG_NEG_REWARD : Int := -100

def BIG_POS_REWARD : Int := 10

/-- One inner dict of `bin_type_distribution_map`: composition key (the
sorted, space-joined multiset of item sizes in a bin) ↦ number of such bins. -/
abbrev InnerMap : Type := List (String × Nat)

/-- `bin_type_distribution_map`: fill level ↦ inner dict. -/
abbrev OuterMap : Type := List (Nat × InnerMap)

/-- Mutable state of `BinPackingGymEnvironment` (also used by its
subclasses).  `num_bins_levels` is the Python list of length `bag_capacity`,
modelled as a total function together with explicit bound checks at each
subscript the source performs. -/
structure BinPackingState where
  bag_capacity : Nat
  item_sizes : List Nat
  time_horizon : Nat
  time_remaining : Int
  item_size : Nat
  num_full_bags : Nat
  num_bins_levels : Nat → Int
  total_reward : Int
  waste : Int
  bin_type_distribution_map : OuterMap
  step_count : Nat

/-- `__update_key_for_bin_type_distribution_map`: split the key on spaces,
append the new item size, sort (Python string sort), and re-join. -/
def update_key_for_bin_type_distribution_map (key : String) (item_size : Nat) : String :=
  pyJoinSpace (pySort (pySplitSpace key ++ [toString item_size]))

/-- Sum of the bin counts recorded at level `l` of the distribution map. -/
def levelSum (M : OuterMap) (l : Nat) : Nat :=
  (((alistGet M l).getD []).map Prod.snd).sum

/-- `__update_bin_type_distribution_map target_bin_util`.  The dict key that
`np.random.choice` picks in the migration branch is passed in as `key`; the
source always draws it from `list(map[target].keys())`, which is non-empty
whenever that branch runs.  (A `key` that is not present would be a
`KeyError` in the source; the model returns the map unchanged there, as it
does in the source's own defensive `count <= 0` early return.) -/
def update_bin_type_distribution_map (cap item_size : Nat) (M : OuterMap)
    (target : Nat) (key : String) : OuterMap :=
  if target + item_size > cap then M
  else if 0 < target ∧ (alistGet M target).isNone then M
  else if 0 < target ∧ ((alistGet M target).getD []).length = 0 then M
  else if target = 0 then
    match alistGet M item_size with
    | none => alistSet M item_size [(toString item_size, 1)]
    | some d =>
      match alistGet d (toString item_size) with
      | none => alistSet M item_size (alistSet d (toString item_size) 1)
      | some c => alistSet M item_size (alistSet d (toString item_size) (c + 1))
  else
    let d := (alistGet M target).getD []
    match alistGet d key with
    | none => M
    | some c =>
      if c = 0 then M
      else
        let M1 := if c = 1 then alistSet M target (alistDel d key)
                  else alistSet M target (alistSet d key (c - 1))
        let new_key := update_key_for_bin_type_distribution_map key item_size
        match alistGet M1 (target + item_size) with
        | none => alistSet M1 (target + item_size) [(new_key, 1)]
        | some d2 =>
          match alistGet d2 new_key with
          | none => alistSet M1 (target + item_size) (alistSet d2 new_key 1)
          | some c2 => alistSet M1 (target + item_size) (alistSet d2 new_key (c2 + 1))

/-- `BinPackingGymEnvironment.reset`, parameterised by the configuration
(which `__init__` stored on the object) and by the first drawn item size. -/
def bp_reset (bag_capacity : Nat) (item_sizes : List Nat) (time_horizon : Nat)
    (first_item : Nat) : BinPackingState :=
  { bag_capacity := bag_capacity
    item_sizes := item_sizes
    time_horizon := time_horizon
    time_remaining := (time_horizon : Int)
    item_size := first_item
    num_full_bags := 0
    num_bins_levels := fun _ => 0
    total_reward := 0
    waste := 0
    bin_type_distribution_map := []
    step_count := 0 }

/-- Pointwise update of the levels function (`num_bins_levels[i] += d` etc.). -/
def updLevels (f : Nat → Int) (i : Nat) (d : Int) : Nat → Int :=
  fun l => if l = i then f i + d else f l

/-- `BinPackingGymEnvironment.step` (the strict variant).  Returns
`(new state, reward, done)`; `none` models the `raise` on an action outside
the action space, and the `IndexError` that `num_bins_levels[item_size] += 1`
would raise if `item_size` equalled `bag_capacity` (the new-bag branch is
only reachable with `item_size ≤ bag_capacity`).  The observation the source
returns is `num_bins_levels ++ [item_size]`, recoverable from the state; the
`info` value is the distribution map, also in the state. -/
def bp_step (s : BinPackingState) (action : Nat) (key : String) (next_item : Nat) :
    Option (BinPackingState × Int × Bool) :=
  if action ≥ s.bag_capacity then none
  else
    let body : Option (BinPackingState × Int × Bool) :=
      if (action : Int) > (s.bag_capacity : Int) - (s.item_size : Int) then
        -- can't insert item because bin overflow
        some (s, BIG_NEG_REWARD - s.waste, true)
      else if action = 0 then
        -- new bag
        if s.item_size < s.bag_capacity then
          let waste : Int := (s.bag_capacity : Int) - (s.item_size : Int)
          some ({ s with
                    num_bins_levels := updLevels s.num_bins_levels s.item_size 1
                    waste := waste
                    bin_type_distribution_map :=
                      update_bin_type_distribution_map s.bag_capacity s.item_size
                        s.bin_type_distribution_map 0 key },
                -1 * waste, false)
        else none
      else if s.num_bins_levels action = 0 then
        -- can't insert item because bin of this level does not exist
        some (s, BIG_NEG_REWARD - s.waste, true)
      else
        let lv1 := if action + s.item_size = s.bag_capacity then s.num_bins_levels
                   else updLevels s.num_bins_levels (action + s.item_size) 1
        let nfb := if action + s.item_size = s.bag_capacity then s.num_full_bags + 1
                   else s.num_full_bags
        let waste : Int := -(s.item_size : Int)
        some ({ s with
                  num_bins_levels := updLevels lv1 action (-1)
                  num_full_bags := nfb
                  waste := waste
                  bin_type_distribution_map :=
                    update_bin_type_distribution_map s.bag_capacity s.item_size
                      s.bin_type_distribution_map action key },
              -1 * waste, false)
    match body with
    | none => none
    | some (s1, reward, doneFlag) =>
      let tr := s1.time_remaining - 1
      some ({ s1 with
                step_count := s1.step_count + 1
                total_reward := s1.total_reward + reward
                time_remaining := tr
                item_size := next_item },
            reward, doneFlag || decide (tr = 0))

/-- `BinPackingIncrementalWasteGymEnvironment.step`.  This override spells
`self.__update_bin_type_distribution_map(...)` (lines 341 and 351) and
`self.item_size = self.__get_item()` (line 365); inside this subclass those
private names mangle to `_BinPackingIncrementalWasteGymEnvironment__...`,
attributes that do not exist — the parent defines
`_BinPackingGymEnvironment__...` (the sibling
`BinPackingNearActionGymEnvironment` writes the mangled parent names out at
lines 389 and 410, which is why it works).  Consequently **every** call of
this step raises `AttributeError` and never returns: the new-bag branch
raises at line 341, the valid-placement branch at line 351, and the two
invalid-action branches (overflow, empty level) fall through to line 365
and raise there.  Each branch is therefore `none` (attribute mutations made
before the raise are discarded, per this file's exception convention). -/
def bpiw_step (s : BinPackingState) (action : Nat) :
    Option (BinPackingState × Int × Bool) :=
  if action ≥ s.bag_capacity then
    none  -- bare `raise`
  else if (action : Int) > (s.bag_capacity : Int) - (s.item_size : Int) then
    none  -- reward set, but `self.__get_item()` at line 365 raises AttributeError
  else if action = 0 then
    none  -- `self.__update_bin_type_distribution_map(0)` at line 341 raises AttributeError
  else if s.num_bins_levels action = 0 then
    none  -- reward set, but `self.__get_item()` at line 365 raises AttributeError
  else
    none  -- `self.__update_bin_type_distribution_map(action)` at line 351 raises AttributeError

/-! ## Bin packing: near-action variant (`BinPackingNearActionGymEnvironment`) -/

/-- `__is_action_valid`; `none` models the `raise` for actions outside the
action space. -/
def na_is_action_valid (s : BinPackingState) (action : Nat) : Option Bool :=
  if action ≥ s.bag_capacity then none
  else if (action : Int) > (s.bag_capacity : Int) - (s.item_size : Int) then some false
  else if action = 0 then some true
  else if s.num_bins_levels action = 0 then some false
  else some true

/-- The list `valid_actions` built inside `__get_nearest_valid_action`:
levels `x ∈ range(1, bag_capacity)` with `num_bins_levels[x] > 0` and
`x <= bag_capacity - item_size`, in increasing order. -/
def na_valid_actions (s : BinPackingState) : List Nat :=
  (List.range' 1 (s.bag_capacity - 1)).filter
    (fun x => decide (0 < s.num_bins_levels x) &&
              decide ((x : Int) ≤ (s.bag_capacity : Int) - (s.item_size : Int)))

/-- `__get_nearest_valid_action`: Python's
`min(valid_actions, key=lambda x: abs(x - action))` keeps the current best
unless the new key is strictly smaller, so the first minimiser wins;
fall back to action 0 (open a new bag) when no valid action exists. -/
def na_get_nearest_valid_action (s : BinPackingState) (action : Nat) : Nat :=
  match na_valid_actions s with
  | [] => 0
  | x :: xs =>
    xs.foldl
      (fun (b y : Nat) =>
        if ((y : Int) - (action : Int)).natAbs < ((b : Int) - (action : Int)).natAbs
        then y else b) x

/-- The first lines of `BinPackingNearActionGymEnvironment.step`: the action
that is actually passed on to `__insert_item` — the submitted action if
valid, otherwise the repaired one. -/
def na_applied_action (s : BinPackingState) (action : Nat) : Option Nat :=
  match na_is_action_valid s action with
  | none => none
  | some true => some action
  | some false => some (na_get_nearest_valid_action s action)

/-! ## Bipartite matching, `environment.py` (`BipartiteMatchingGymEnvironment`
and its action-mask subclass) -/

/-- Mutable state of `BipartiteMatchingGymEnvironment`.  `edges` comes from
the constructor configuration (default `[]`) or `read_graph_from_file`;
entries are `Int` because the source stores plain Python ints. -/
structure BMState where
  offline : Nat
  online : Nat
  time_horizon : Nat
  edges : List (List Int)
  time_remaining : Int
  online_type : Nat
  num_matched_offline : Int
  list_matched_offline : List Nat
  step_count : Nat
deriving DecidableEq

/-- `BipartiteMatchingGymEnvironment.reset`, parameterised by the first
drawn online type. -/
def bm_reset (offline online time_horizon : Nat) (edges : List (List Int))
    (first_type : Nat) : BMState :=
  { offline := offline
    online := online
    time_horizon := time_horizon
    edges := edges
    time_remaining := (time_horizon : Int)
    online_type := first_type
    num_matched_offline := 0
    list_matched_offline := List.replicate offline 0
    step_count := 0 }

/-- `BipartiteMatchingGymEnvironment.step`.  Branch order is the source's:
the `list_matched_offline[action]` test comes **before** the
`action == self.offline` test, so calling the skip action
`action = offline` raises `IndexError` (the list has length `offline`) and
the source's `elif action == self.offline: reward = 0` branch is dead code.
The next online type (`np.random.choice`) is the `next_type` parameter; the
observation is `list_matched_offline ++ [online_type]`, recoverable from the
returned state. -/
def bm_step (s : BMState) (action : Nat) (next_type : Nat) :
    Option (BMState × Int × Bool) :=
  if action > s.offline then none
  else
    let body : Option (BMState × Int) :=
      match s.list_matched_offline[action]? with
      | none => none
      | some m =>
        if m = 1 then some (s, 0)
        else if action = s.offline then some (s, 0)
        else some ({ s with list_matched_offline := s.list_matched_offline.set action 1 }, 1)
    match body with
    | none => none
    | some (s1, reward) =>
      let tr := s1.time_remaining - 1
      some ({ s1 with
                num_matched_offline := s1.num_matched_offline + reward
                time_remaining := tr
                online_type := next_type
                step_count := s1.step_count + 1 },
            reward, decide (tr = 0))

/-- `BipartiteMatchingActionMaskGymEnvironment.__get_valid_actions`:
unmatched entries of `edges[online_type]`, then the literal `0` is appended
("open new bag" — copied from the bin-packing mask; this class has no skip
index, its action space is `Discrete(offline)`). -/
def bm_get_valid_actions (s : BMState) : Option (List Int) :=
  match s.edges[s.online_type]? with
  | none => none
  | some nbrs =>
    (nbrs.foldlM
      (fun (acc : List Int) x =>
        match pyIndex s.list_matched_offline x with
        | none => none
        | some mv => some (if mv = 0 then acc ++ [x] else acc)) []).map
      (fun va => va ++ [0])

/-- The mask `[1 if x in valid_actions else 0 for x in range(offline)]`
recomputed by the action-mask wrapper after every `reset` and `step`. -/
def bm_action_mask (s : BMState) : Option (List Nat) :=
  (bm_get_valid_actions s).map
    (fun va => (List.range s.offline).map (fun (x : Nat) => if ((x : Int) ∈ va) then 1 else 0))

/-! ## Online matching, `online_matching_environment.py` -/

/-- Shared mutable state of `OnlineGraphGymEnvironment` and its subclasses.
`BipartiteMatchingGymEnvironment_UpperTriangle` is a separate `gym.Env`, but
its attributes are exactly these, so the same record is reused for it. -/
structure OGState where
  offline : Nat
  online : Nat
  time_horizon : Nat
  edges : List (List Int)
  time_remaining : Int
  online_type : Nat
  online_type_list : List Nat
  rl_matching : List Int
  matched_offline_list : List Nat
  realsize : Nat
deriving DecidableEq

/-- `OnlineGraphGymEnvironment.step`.  Returns `(state, reward, done)`;
the source returns only `(reward, done, info)` — no observation — and every
subclass builds its own observation on top of this. -/
def og_step (s : OGState) (action : Nat) : Option (OGState × Int × Bool) :=
  if action > s.offline then none
  else
    let body : Option (OGState × Int) :=
      if action = s.offline then
        -- choose not to match
        some ({ s with rl_matching := s.rl_matching ++ [-1] }, 0)
      else
        match s.edges[s.online_type]? with
        | none => none
        | some nbrs =>
          if ((action : Int) + (s.online : Int)) ∉ nbrs then
            -- offline is not a valid neighbor
            some ({ s with rl_matching := s.rl_matching ++ [-1] }, 0)
          else
            match s.matched_offline_list[action]? with
            | none => none
            | some m =>
              if m = 1 then
                -- offline neighbor already matched
                some ({ s with rl_matching := s.rl_matching ++ [-1] }, 0)
              else
                some ({ s with
                          rl_matching := s.rl_matching ++ [(action : Int) + (s.online : Int)]
                          matched_offline_list := s.matched_offline_list.set action 1 },
                      1)
    match body with
    | none => none
    | some (s1, reward) =>
      let tr := s1.time_remaining - 1
      some ({ s1 with time_remaining := tr }, reward, decide (tr = 0))

/-- The `adjencent_list` built by the subclasses: a length-`offline` list of
zeros with `adjencent_list[y - online] = 1` for each `y` in
`edges[online_type]` (Python write, with negative-index wrap / IndexError). -/
def buildAdjacentList (offline online : Nat) (nbrs : List Int) : Option (List Nat) :=
  nbrs.foldlM (fun acc y => pySet acc (y - (online : Int)) 1) (List.replicate offline 0)

/-- The observation the subclasses build:
`matched_offline_list ++ adjencent_list ++ [online_type] ++ [1 - time_remaining/time_horizon]`
(the last entry is a Python float, modelled as an exact rational). -/
def og_observation (s : OGState) (adj : List Nat) : List ℚ :=
  (s.matched_offline_list.map (fun m => (m : ℚ))) ++ (adj.map (fun a => (a : ℚ))) ++
    [(s.online_type : ℚ)] ++ [1 - (s.time_remaining : ℚ) / (s.time_horizon : ℚ)]

/-- State of `OnlineBipartiteMatchingGymEnvironment` (permutation arrivals). -/
structure OBMState extends OGState where
  online_vertex_arrival_order : List Nat
deriving DecidableEq

/-- `OnlineBipartiteMatchingGymEnvironment.step`: run the shared engine step;
only when not terminal draw the next online type
(`online_vertex_arrival_order[time_horizon - time_remaining]`), rebuild the
adjacency list and observation, and append to `online_type_list`; at a
terminal step the observation is `None` (`none`) and nothing else runs. -/
def obm_step (s : OBMState) (action : Nat) :
    Option (OBMState × Option (List ℚ) × Int × Bool) :=
  match og_step s.toOGState action with
  | none => none
  | some (s1, reward, doneFlag) =>
    if doneFlag then
      some ({ s with toOGState := s1 }, none, reward, doneFlag)
    else
      match pyIndex s.online_vertex_arrival_order ((s1.time_horizon : Int) - s1.time_remaining) with
      | none => none
      | some t =>
        match s1.edges[t]? with
        | none => none
        | some nbrs =>
          match buildAdjacentList s1.offline s1.online nbrs with
          | none => none
          | some adj =>
            let s2 : OGState :=
              { s1 with
                  online_type := t
                  online_type_list := s1.online_type_list ++ [t]
                  realsize := (s1.online_type_list ++ [t]).length }
            some ({ s with toOGState := s2 }, some (og_observation s2 adj), reward, doneFlag)

/-- `StochasticBipartiteMatchingGymEnvironment.step`: run the shared engine
step, then **unconditionally** draw the next online type (`np.random.choice`,
the `next_type` parameter) and build a fresh observation — even when the
step is terminal. -/
def sbm_step (s : OGState) (action : Nat) (next_type : Nat) :
    Option (OGState × Option (List ℚ) × Int × Bool) :=
  match og_step s action with
  | none => none
  | some (s1, reward, doneFlag) =>
    match s1.edges[next_type]? with
    | none => none
    | some nbrs =>
      match buildAdjacentList s1.offline s1.online nbrs with
      | none => none
      | some adj =>
        let s2 : OGState := { s1 with online_type := next_type }
        some (s2, some (og_observation s2 adj), reward, doneFlag)

/-- The synthetic upper-triangle adjacency built in
`BipartiteMatchingGymEnvironment_UpperTriangle.__init__`: online vertex `i`
is adjacent to `[online + j for j in range(i, offline)]`. -/
def ut_edges (offline online : Nat) : List (List Int) :=
  (List.range online).map
    (fun i => (List.range' i (offline - i)).map (fun j => ((online : Int) + (j : Int))))

/-- `BipartiteMatchingGymEnvironment_UpperTriangle.step`.  The result's last
component records whether execution hit the `pdb.set_trace()` breakpoint in
the skip branch (the source suspends into the debugger there; the model
continues with the code that follows it).  At a non-terminal step the next
online type is the deterministic `time_horizon - time_remaining`. -/
def ut_step (s : OGState) (action : Nat) :
    Option (OGState × Option (List ℚ) × Int × Bool × Bool) :=
  if action > s.offline then none
  else
    let body : Option (OGState × Int × Bool) :=
      if action = s.offline then
        -- import pdb; pdb.set_trace()  ← debugger breakpoint, then "choose not to match"
        some ({ s with rl_matching := s.rl_matching ++ [-1] }, 0, true)
      else
        match s.edges[s.online_type]? with
        | none => none
        | some nbrs =>
          if ((action : Int) + (s.online : Int)) ∉ nbrs then
            some ({ s with rl_matching := s.rl_matching ++ [-1] }, 0, false)
          else
            match s.matched_offline_list[action]? with
            | none => none
            | some m =>
              if m = 1 then
                some ({ s with rl_matching := s.rl_matching ++ [-1] }, 0, false)
              else
                some ({ s with
                          rl_matching := s.rl_matching ++ [(action : Int) + (s.online : Int)]
                          matched_offline_list := s.matched_offline_list.set action 1 },
                      1, false)
    match body with
    | none => none
    | some (s1, reward, suspended) =>
      let tr := s1.time_remaining - 1
      let doneFlag := decide (tr = 0)
      if doneFlag then
        some ({ s1 with time_remaining := tr }, none, reward, doneFlag, suspended)
      else
        let tInt : Int := (s1.time_horizon : Int) - tr
        if 0 ≤ tInt then
          let t : Nat := tInt.toNat
          match s1.edges[t]? with
          | none => none
          | some nbrs =>
            match buildAdjacentList s1.offline s1.online nbrs with
            | none => none
            | some adj =>
              let s2 : OGState :=
                { s1 with
                    time_remaining := tr
                    online_type := t
                    online_type_list := s1.online_type_list ++ [t]
                    realsize := (s1.online_type_list ++ [t]).length }
              some (s2, some (og_observation s2 adj), reward, doneFlag, suspended)
        else none

/-- `__get_valid_actions`, shared verbatim between
`OnlineBipartiteMatchingActionMaskGymEnvironment` and
`BipartiteMatchingActionMaskGymEnvironment_UpperTriangle` (their bodies are
identical): the unmatched `y - online` for `y` in `edges[online_type]`,
then the skip action `offline` is appended. -/
def matching_get_valid_actions (edges : List (List Int)) (online_type : Nat)
    (matched : List Nat) (online offline : Nat) : Option (List Int) :=
  match edges[online_type]? with
  | none => none
  | some nbrs =>
    (nbrs.foldlM
      (fun (acc : List Int) y =>
        match pyIndex matched (y - (online : Int)) with
        | none => none
        | some mv => some (if mv = 0 then acc ++ [y - (online : Int)] else acc)) []).map
      (fun va => va ++ [(offline : Int)])

/-- The mask `[1 if x in valid_actions else 0 for x in range(offline + 1)]`
(both mask classes have `action_space = Discrete(offline + 1)`), recomputed
after every `reset` and `step`. -/
def matching_action_mask (edges : List (List Int)) (online_type : Nat)
    (matched : List Nat) (online offline : Nat) : Option (List Nat) :=
  (matching_get_valid_actions edges online_type matched online offline).map
    (fun va => (List.range (offline + 1)).map
      (fun (x : Nat) => if ((x : Int) ∈ va) then 1 else 0))

/-! ## Graph-file construction (`OnlineGraphGymEnvironment.__init__` /
`read_graph_from_file`), for the construction-time claim.  The file is
modelled at token level: each line is the list of integers produced by
Python's `split()` + `int(...)` on that line. -/

/-- The fields of `OnlineGraphGymEnvironment` that construction writes.
They are `Int` here because `read_graph_from_file` assigns the parsed
(unvalidated) integer `n` to them. -/
structure OGInit where
  offline : Int
  online : Int
  time_horizon : Int
  edges : List (List Int)
deriving DecidableEq

/-- `read_graph_from_file`: `m, n = lines[1].split()[1:]`; build `n + n`
empty adjacency lists; for each later line `x, y = line.split()[:2]`, append
`y - 1 + n` to `edges[x - 1]` and `x - 1` to `edges[y - 1 + n]`; finally set
`offline = online = time_horizon = n`.  `none` models the `IndexError` /
unpack `ValueError` / out-of-range list writes the source can raise. -/
def read_graph_from_file (s : OGInit) (lines : List (List Int)) : Option OGInit :=
  match lines[1]? with
  | none => none
  | some l1 =>
    match l1.drop 1 with
    | [_, n] =>
      let edges0 : List (List Int) := List.replicate (n + n).toNat []
      let step := fun (edges : List (List Int)) (line : List Int) =>
        match line.take 2 with
        | [x, y] => do
          let e1 ← pyAppendAt edges (x - 1) ((y - 1) + n)
          pyAppendAt e1 ((y - 1) + n) (x - 1)
        | _ => none
      match (lines.drop 2).foldlM step edges0 with
      | none => none
      | some edges =>
        some { s with edges := edges, offline := n, online := n, time_horizon := n }
    | _ => none

/-- `OnlineGraphGymEnvironment.__init__`: store the configuration values
(`offline`, `online`, `time_horizon`, `edges`, with documented defaults),
then call `read_graph_from_file`. -/
def og_init (cfg_offline cfg_online cfg_time_horizon : Int)
    (cfg_edges : List (List Int)) (lines : List (List Int)) : Option OGInit :=
  read_graph_from_file
    { offline := cfg_offline
      online := cfg_online
      time_horizon := cfg_time_horizon
      edges := cfg_edges } lines

/-- The header field `n` of a graph file: the third token of line 1 (the
source unpacks `m, n = lines[1].split()[1:]`). -/
def graph_header_n (lines : List (List Int)) : Option Int :=
  match lines[1]? with
  | none => none
  | some l1 =>
    match l1.drop 1 with
    | [_, n] => some n
    | _ => none

/-! ## Output projections (convenience accessors for stating facts about
step results) -/

def bp_out_state (o : Option (BinPackingState × Int × Bool)) : Option BinPackingState :=
  o.map (fun x => x.1)

def bp_out_reward (o : Option (BinPackingState × Int × Bool)) : Option Int :=
  o.map (fun x => x.2.1)

def bp_out_done (o : Option (BinPackingState × Int × Bool)) : Option Bool :=
  o.map (fun x => x.2.2)

def bp_out_step_count (o : Option (BinPackingState × Int × Bool)) : Option Nat :=
  o.map (fun x => x.1.step_count)

/-! ## The concrete C1 episode: capacity 9, item sizes [2, 3], horizon 3,
random stream drawing items 2, 3, 2 (the draw made during step 3 lands after
the episode is terminal and never influences the claimed observables; it is
taken to be 2 here).  In step 3 the level-2 inner dict is the singleton
`{"2": 1}` (proved below), so `"2"` is the only key `np.random.choice` can
draw. -/

def c1_s0 : BinPackingState := bp_reset 9 [2, 3] 3 2

def c1_s1 : BinPackingState := (bp_out_state (bp_step c1_s0 0 "" 3)).getD c1_s0

def c1_s2 : BinPackingState := (bp_out_state (bp_step c1_s1 0 "" 2)).getD c1_s0

def c1_s3 : BinPackingState := (bp_out_state (bp_step c1_s2 2 "2" 2)).getD c1_s0

/-! ## Reachability of the strict bin-packing engine -/

/-- Sum of the counts of one dict with `Nat` values. -/
def innerSum {κ : Type} (d : List (κ × Nat)) : Nat := (d.map Prod.snd).sum

/-- Constraint tying the `key` parameter of `bp_step` to the source's
`np.random.choice(list(bin_type_distribution_map[action].keys()))`: whenever
the placement branch that draws a key is reached (valid non-zero action on a
non-empty level whose inner dict is non-empty), the key is one of that inner
dict's keys.  Every execution of the source satisfies this. -/
def bp_key_ok (s : BinPackingState) (action : Nat) (key : String) : Prop :=
  (action < s.bag_capacity ∧
     (action : Int) ≤ (s.bag_capacity : Int) - (s.item_size : Int) ∧
     action ≠ 0 ∧ s.num_bins_levels action ≠ 0 ∧
     ((alistGet s.bin_type_distribution_map action).getD []) ≠ []) →
  key ∈ alistKeys ((alistGet s.bin_type_distribution_map action).getD [])

/-- States of `BinPackingGymEnvironment` reachable from some `reset` by any
sequence of (non-raising) `step` calls, for a fixed configuration.  Item
draws range over `item_sizes` (the support of `np.random.choice` over
`item_probabilities`), and dict-key draws satisfy `bp_key_ok`. -/
inductive BPReachable (cap : Nat) (sizes : List Nat) (horizon : Nat) :
    BinPackingState → Prop where
  | reset : ∀ item, item ∈ sizes →
      BPReachable cap sizes horizon (bp_reset cap sizes horizon item)
  | step : ∀ s action key next_item s' reward doneFlag,
      BPReachable cap sizes horizon s → next_item ∈ sizes →
      bp_key_ok s action key →
      bp_step s action key next_item = some (s', reward, doneFlag) →
      BPReachable cap sizes horizon s'

/-- Well-formedness of the distribution map that CPython dicts guarantee by
construction: outer keys are distinct, inner keys are distinct, and every
recorded count is at least 1 (a count that drops to 1 is deleted, never
decremented to 0). -/
def bp_map_wf (M : OuterMap) : Prop :=
  (alistKeys M).Nodup ∧ (∀ p ∈ M, (alistKeys p.2).Nodup) ∧
    (∀ p ∈ M, ∀ q ∈ p.2, 1 ≤ q.2)

/-! ## Lemmas about the dict model -/

theorem alistGet_cons {κ ν : Type} [DecidableEq κ] (p : κ × ν) (d : List (κ × ν)) (k : κ) :
    alistGet (p :: d) k = if p.1 = k then some p.2 else alistGet d k := by
  by_cases h : p.1 = k
  · simp [alistGet, List.find?_cons_of_pos, h]
  · simp only [alistGet, h, if_false]
    rw [List.find?_cons_of_neg]
    simp [h]

theorem alistGet_nil {κ ν : Type} [DecidableEq κ] (k : κ) :
    alistGet ([] : List (κ × ν)) k = none := rfl


theorem alistGet_eq_none_iff {κ ν : Type} [DecidableEq κ] (d : List (κ × ν)) (k : κ) :
    alistGet d k = none ↔ k ∉ alistKeys d := by
  induction d with
  | nil => simp [alistGet_nil, alistKeys]
  | cons p d ih =>
    rw [alistGet_cons]
    unfold alistKeys at ih ⊢
    rw [List.map_cons]
    by_cases h : p.1 = k
    · simp [h]
    · rw [if_neg h]
      constructor
      · intro hn hmem
        rcases List.mem_cons.mp hmem with he | hm
        · exact h he.symm
        · exact (ih.mp hn) hm
      · intro hnm
        exact ih.mpr (fun hm => hnm (List.mem_cons_of_mem _ hm))

theorem alistGet_isSome_of_mem_keys {κ ν : Type} [DecidableEq κ] {d : List (κ × ν)} {k : κ}
    (h : k ∈ alistKeys d) : ∃ v, alistGet d k = some v := by
  cases hg : alistGet d k with
  | none => exact absurd ((alistGet_eq_none_iff d k).mp hg) (not_not_intro h)
  | some v => exact ⟨v, rfl⟩

theorem alistGet_mem {κ ν : Type} [DecidableEq κ] {d : List (κ × ν)} {k : κ} {v : ν}
    (h : alistGet d k = some v) : (k, v) ∈ d := by
  induction d with
  | nil => simp [alistGet] at h
  | cons p d ih =>
    rw [alistGet_cons] at h
    by_cases hp : p.1 = k
    · rw [if_pos hp] at h
      have hv : p.2 = v := by injection h
      have hpv : (k, v) = p := by cases p; simp_all
      rw [hpv]
      exact List.mem_cons_self p d
    · rw [if_neg hp] at h
      exact List.mem_cons_of_mem _ (ih h)

theorem alistSet_of_absent {κ ν : Type} [DecidableEq κ] {d : List (κ × ν)} {k : κ} (v : ν)
    (h : alistGet d k = none) : alistSet d k v = d ++ [(k, v)] := by
  have : d.find? (fun p => decide (p.1 = k)) = none := by
    unfold alistGet at h
    cases hf : d.find? (fun p => decide (p.1 = k)) with
    | none => rfl
    | some p => rw [hf] at h; simp at h
  simp [alistSet, this]

theorem alistSet_of_present {κ ν : Type} [DecidableEq κ] {d : List (κ × ν)} {k : κ} {c : ν} (v : ν)
    (h : alistGet d k = some c) :
    alistSet d k v = d.map (fun p => if p.1 = k then (k, v) else p) := by
  have : (d.find? (fun p => decide (p.1 = k))).isSome := by
    unfold alistGet at h
    cases hf : d.find? (fun p => decide (p.1 = k)) with
    | none => rw [hf] at h; simp at h
    | some p => simp
  simp [alistSet, this]

theorem alistGet_appendSingle_self {κ ν : Type} [DecidableEq κ] {d : List (κ × ν)} {k : κ} (v : ν)
    (h : k ∉ alistKeys d) : alistGet (d ++ [(k, v)]) k = some v := by
  induction d with
  | nil => simp [alistGet_cons]
  | cons p d ih =>
    unfold alistKeys at h
    rw [List.map_cons, List.mem_cons] at h
    push_neg at h
    rw [List.cons_append, alistGet_cons, if_neg (fun he => h.1 he.symm)]
    exact ih h.2

theorem alistGet_appendSingle_ne {κ ν : Type} [DecidableEq κ] {d : List (κ × ν)} {k k' : κ} (v : ν)
    (h : k' ≠ k) : alistGet (d ++ [(k, v)]) k' = alistGet d k' := by
  induction d with
  | nil => simp [alistGet_cons, alistGet_nil]; exact fun he => h he.symm
  | cons p d ih =>
    rw [List.cons_append, alistGet_cons, alistGet_cons]
    by_cases hp : p.1 = k'
    · simp [hp]
    · rw [if_neg hp, if_neg hp]
      exact ih

theorem alistGet_mapSet_self {κ ν : Type} [DecidableEq κ] {d : List (κ × ν)} {k : κ} (v : ν)
    (h : k ∈ alistKeys d) :
    alistGet (d.map (fun p => if p.1 = k then (k, v) else p)) k = some v := by
  induction d with
  | nil => simp [alistKeys] at h
  | cons p d ih =>
    rw [List.map_cons]
    by_cases hp : p.1 = k
    · rw [if_pos hp, alistGet_cons, if_pos rfl]
    · rw [if_neg hp, alistGet_cons, if_neg hp]
      unfold alistKeys at h
      rw [List.map_cons, List.mem_cons] at h
      rcases h with he | hm
      · exact absurd he.symm hp
      · exact ih hm

theorem alistGet_mapSet_ne {κ ν : Type} [DecidableEq κ] {d : List (κ × ν)} {k k' : κ} (v : ν)
    (h : k' ≠ k) :
    alistGet (d.map (fun p => if p.1 = k then (k, v) else p)) k' = alistGet d k' := by
  induction d with
  | nil => rfl
  | cons p d ih =>
    rw [List.map_cons]
    by_cases hp : p.1 = k
    · rw [if_pos hp, alistGet_cons, alistGet_cons]
      have h1 : ¬ (k, v).1 = k' := fun he => h he.symm
      have h2 : ¬ p.1 = k' := by rw [hp]; exact fun he => h he.symm
      rw [if_neg h1, if_neg h2]
      exact ih
    · rw [if_neg hp, alistGet_cons, alistGet_cons]
      by_cases hp' : p.1 = k'
      · rw [if_pos hp', if_pos hp']
      · rw [if_neg hp', if_neg hp']
        exact ih

theorem alistGet_set_self {κ ν : Type} [DecidableEq κ] (d : List (κ × ν)) (k : κ) (v : ν) :
    alistGet (alistSet d k v) k = some v := by
  cases hg : alistGet d k with
  | none =>
    rw [alistSet_of_absent v hg]
    exact alistGet_appendSingle_self v ((alistGet_eq_none_iff d k).mp hg)
  | some c =>
    rw [alistSet_of_present v hg]
    have hk : k ∈ alistKeys d := by
      by_contra hk
      rw [← alistGet_eq_none_iff d k] at hk
      rw [hk] at hg
      exact Option.noConfusion hg
    exact alistGet_mapSet_self v hk

theorem alistGet_set_ne {κ ν : Type} [DecidableEq κ] (d : List (κ × ν)) (k k' : κ) (v : ν)
    (h : k' ≠ k) : alistGet (alistSet d k v) k' = alistGet d k' := by
  cases hg : alistGet d k with
  | none => rw [alistSet_of_absent v hg]; exact alistGet_appendSingle_ne v h
  | some c => rw [alistSet_of_present v hg]; exact alistGet_mapSet_ne v h

theorem alistKeys_set_present {κ ν : Type} [DecidableEq κ] {d : List (κ × ν)} {k : κ} {c : ν} (v : ν)
    (h : alistGet d k = some c) : alistKeys (alistSet d k v) = alistKeys d := by
  rw [alistSet_of_present v h]
  unfold alistKeys
  rw [List.map_map]
  apply List.map_congr_left
  intro p _
  by_cases hp : p.1 = k
  · simp [hp]
  · simp [hp]

theorem alistKeys_set_absent {κ ν : Type} [DecidableEq κ] {d : List (κ × ν)} {k : κ} (v : ν)
    (h : alistGet d k = none) : alistKeys (alistSet d k v) = alistKeys d ++ [k] := by
  rw [alistSet_of_absent v h]
  simp [alistKeys]

theorem alistKeys_set_nodup {κ ν : Type} [DecidableEq κ] {d : List (κ × ν)} {k : κ} (v : ν)
    (h : (alistKeys d).Nodup) : (alistKeys (alistSet d k v)).Nodup := by
  cases hg : alistGet d k with
  | none =>
    rw [alistKeys_set_absent v hg]
    rw [alistGet_eq_none_iff] at hg
    simp [List.nodup_append, h, hg]
  | some c => rw [alistKeys_set_present v hg]; exact h

theorem alistMem_set {κ ν : Type} [DecidableEq κ] {d : List (κ × ν)} {k : κ} {v : ν} {q : κ × ν}
    (h : q ∈ alistSet d k v) : q = (k, v) ∨ q ∈ d := by
  by_cases hs : (d.find? (fun p => decide (p.1 = k))).isSome
  · simp only [alistSet, hs, if_true] at h
    rcases List.mem_map.mp h with ⟨p, hp, he⟩
    by_cases hpk : p.1 = k
    · left; rw [← he]; simp [hpk]
    · right; rw [← he]; simpa [hpk] using hp
  · simp only [alistSet, hs, if_false] at h
    rcases List.mem_append.mp h with hq | hq
    · right; exact hq
    · left; simpa using hq

theorem alistMem_del {κ ν : Type} [DecidableEq κ] {d : List (κ × ν)} {k : κ} {q : κ × ν}
    (h : q ∈ alistDel d k) : q ∈ d := List.mem_of_mem_filter h

theorem alistKeys_del_nodup {κ ν : Type} [DecidableEq κ] {d : List (κ × ν)} (k : κ)
    (h : (alistKeys d).Nodup) : (alistKeys (alistDel d k)).Nodup := by
  have hs : (alistDel d k).Sublist d := List.filter_sublist d
  exact List.Nodup.sublist (hs.map Prod.fst) h

theorem innerSum_nil {κ : Type} : innerSum ([] : List (κ × Nat)) = 0 := rfl

theorem innerSum_cons {κ : Type} (p : κ × Nat) (d : List (κ × Nat)) :
    innerSum (p :: d) = p.2 + innerSum d := by
  simp [innerSum]

theorem innerSum_set_absent {κ : Type} [DecidableEq κ] {d : List (κ × Nat)} {k : κ} (v : Nat)
    (h : alistGet d k = none) : innerSum (alistSet d k v) = innerSum d + v := by
  rw [alistSet_of_absent v h]
  simp [innerSum]

theorem innerSum_set_present {κ : Type} [DecidableEq κ] {d : List (κ × Nat)} {k : κ} {c : Nat}
    (v : Nat) (hnd : (alistKeys d).Nodup) (h : alistGet d k = some c) :
    innerSum (alistSet d k v) + c = innerSum d + v := by
  rw [alistSet_of_present v h]
  induction d with
  | nil => simp [alistGet] at h
  | cons p d ih =>
    unfold alistKeys at hnd
    rw [List.map_cons, List.nodup_cons] at hnd
    rw [alistGet_cons] at h
    rw [List.map_cons]
    by_cases hp : p.1 = k
    · rw [if_pos hp] at h ⊢
      have hc : p.2 = c := by injection h
      have hmap : d.map (fun p => if p.1 = k then (k, v) else p) = d := by
        rw [show d = List.map id d by rw [List.map_id]]
        rw [List.map_map]
        apply List.map_congr_left
        intro q hq
        have hqk : q.1 ≠ k := by
          intro he
          apply hnd.1
          rw [hp, ← he]
          exact List.mem_map_of_mem Prod.fst hq
        simp [hqk]
      rw [hmap, innerSum_cons, innerSum_cons, hc]
      omega
    · rw [if_neg hp] at h ⊢
      rw [innerSum_cons, innerSum_cons]
      have := ih hnd.2 h
      omega

theorem innerSum_del {κ : Type} [DecidableEq κ] {d : List (κ × Nat)} {k : κ} {c : Nat}
    (hnd : (alistKeys d).Nodup) (h : alistGet d k = some c) :
    innerSum (alistDel d k) + c = innerSum d := by
  induction d with
  | nil => simp [alistGet] at h
  | cons p d ih =>
    unfold alistKeys at hnd
    rw [List.map_cons, List.nodup_cons] at hnd
    rw [alistGet_cons] at h
    by_cases hp : p.1 = k
    · rw [if_pos hp] at h
      have hc : p.2 = c := by injection h
      have hdel : alistDel (p :: d) k = d := by
        unfold alistDel
        rw [List.filter_cons]
        have : ¬ (decide (¬ p.1 = k) = true) := by simp [hp]
        rw [if_neg this]
        have hall : ∀ q ∈ d, decide (¬ q.1 = k) = true := by
          intro q hq
          have hqk : q.1 ≠ k := by
            intro he
            apply hnd.1
            rw [hp, ← he]
            exact List.mem_map_of_mem Prod.fst hq
          simp [hqk]
        exact List.filter_eq_self.mpr hall
      rw [hdel, innerSum_cons, hc]
      omega
    · rw [if_neg hp] at h
      have hdel : alistDel (p :: d) k = p :: alistDel d k := by
        unfold alistDel
        rw [List.filter_cons]
        have : decide (¬ p.1 = k) = true := by simp [hp]
        rw [if_pos this]
      rw [hdel, innerSum_cons, innerSum_cons]
      have := ih hnd.2 h
      omega

/-- Unfolding `levelSum` through `innerSum`. -/
theorem levelSum_def (M : OuterMap) (l : Nat) :
    levelSum M l = innerSum ((alistGet M l).getD []) := rfl

theorem levelSum_set (M : OuterMap) (l : Nat) (d : InnerMap) :
    levelSum (alistSet M l d) l = innerSum d := by
  rw [levelSum_def, alistGet_set_self]
  rfl

theorem levelSum_set_ne (M : OuterMap) (l l' : Nat) (d : InnerMap) (h : l' ≠ l) :
    levelSum (alistSet M l d) l' = levelSum M l' := by
  rw [levelSum_def, alistGet_set_ne _ _ _ _ h, levelSum_def]

/-- The "create-or-increment one composition key at level `L`" pattern used
by both the new-bag branch and the destination half of the migration branch
of `__update_bin_type_distribution_map`: it adds exactly one bin at level
`L` and keeps every other level sum, preserving well-formedness. -/
theorem outer_bump (M : OuterMap) (L : Nat) (k0 : String) (hwf : bp_map_wf M) :
    bp_map_wf (match alistGet M L with
               | none => alistSet M L [(k0, 1)]
               | some d =>
                 match alistGet d k0 with
                 | none => alistSet M L (alistSet d k0 1)
                 | some c => alistSet M L (alistSet d k0 (c + 1))) ∧
    levelSum (match alistGet M L with
              | none => alistSet M L [(k0, 1)]
              | some d =>
                match alistGet d k0 with
                | none => alistSet M L (alistSet d k0 1)
                | some c => alistSet M L (alistSet d k0 (c + 1))) L = levelSum M L + 1 ∧
    ∀ l, l ≠ L →
      levelSum (match alistGet M L with
                | none => alistSet M L [(k0, 1)]
                | some d =>
                  match alistGet d k0 with
                  | none => alistSet M L (alistSet d k0 1)
                  | some c => alistSet M L (alistSet d k0 (c + 1))) l = levelSum M l := by
  obtain ⟨hnodup, hinner, hcounts⟩ := hwf
  cases hM : alistGet M L with
  | none =>
    dsimp only
    refine ⟨⟨alistKeys_set_nodup _ hnodup, ?_, ?_⟩, ?_, ?_⟩
    · intro p hp
      rcases alistMem_set hp with he | hm
      · rw [he]; simp [alistKeys]
      · exact hinner p hm
    · intro p hp q hq
      rcases alistMem_set hp with he | hm
      · rw [he] at hq
        simp at hq
        subst hq
        simp
      · exact hcounts p hm q hq
    · rw [levelSum_set, levelSum_def, hM]
      simp [innerSum]
    · intro l hl
      exact levelSum_set_ne M L l _ hl
  | some d =>
    dsimp only
    have hdmem : (L, d) ∈ M := alistGet_mem hM
    have hdnodup : (alistKeys d).Nodup := hinner (L, d) hdmem
    cases hc : alistGet d k0 with
    | none =>
      dsimp only
      refine ⟨⟨alistKeys_set_nodup _ hnodup, ?_, ?_⟩, ?_, ?_⟩
      · intro p hp
        rcases alistMem_set hp with he | hm
        · rw [he]; exact alistKeys_set_nodup _ hdnodup
        · exact hinner p hm
      · intro p hp q hq
        rcases alistMem_set hp with he | hm
        · rw [he] at hq
          rcases alistMem_set hq with he' | hm'
          · rw [he']
          · exact hcounts (L, d) hdmem q hm'
        · exact hcounts p hm q hq
      · rw [levelSum_set, levelSum_def, hM, innerSum_set_absent 1 hc]
        simp only [Option.getD_some]
      · intro l hl
        exact levelSum_set_ne M L l _ hl
    | some c =>
      dsimp only
      refine ⟨⟨alistKeys_set_nodup _ hnodup, ?_, ?_⟩, ?_, ?_⟩
      · intro p hp
        rcases alistMem_set hp with he | hm
        · rw [he]; exact alistKeys_set_nodup _ hdnodup
        · exact hinner p hm
      · intro p hp q hq
        rcases alistMem_set hp with he | hm
        · rw [he] at hq
          rcases alistMem_set hq with he' | hm'
          · rw [he']; simp
          · exact hcounts (L, d) hdmem q hm'
        · exact hcounts p hm q hq
      · rw [levelSum_set, levelSum_def, hM]
        have := innerSum_set_present (c + 1) hdnodup hc
        simp only [Option.getD_some]
        omega
      · intro l hl
        exact levelSum_set_ne M L l _ hl

/-- The "decrement-or-delete one composition key at level `L`" pattern used
by the source half of the migration branch: it removes exactly one bin at
level `L` and keeps every other level sum, preserving well-formedness. -/
theorem outer_drop (M : OuterMap) (L : Nat) (key : String) (d : InnerMap) (c : Nat)
    (hwf : bp_map_wf M) (hd : alistGet M L = some d) (hc : alistGet d key = some c) :
    bp_map_wf (if c = 1 then alistSet M L (alistDel d key)
               else alistSet M L (alistSet d key (c - 1))) ∧
    levelSum (if c = 1 then alistSet M L (alistDel d key)
              else alistSet M L (alistSet d key (c - 1))) L + 1 = levelSum M L ∧
    ∀ l, l ≠ L →
      levelSum (if c = 1 then alistSet M L (alistDel d key)
                else alistSet M L (alistSet d key (c - 1))) l = levelSum M l := by
  obtain ⟨hnodup, hinner, hcounts⟩ := hwf
  have hdmem : (L, d) ∈ M := alistGet_mem hd
  have hdnodup : (alistKeys d).Nodup := hinner (L, d) hdmem
  have hc1 : 1 ≤ c := hcounts (L, d) hdmem (key, c) (alistGet_mem hc)
  by_cases h1 : c = 1
  · rw [if_pos h1]
    refine ⟨⟨alistKeys_set_nodup _ hnodup, ?_, ?_⟩, ?_, ?_⟩
    · intro p hp
      rcases alistMem_set hp with he | hm
      · rw [he]; exact alistKeys_del_nodup key hdnodup
      · exact hinner p hm
    · intro p hp q hq
      rcases alistMem_set hp with he | hm
      · rw [he] at hq
        exact hcounts (L, d) hdmem q (alistMem_del hq)
      · exact hcounts p hm q hq
    · rw [levelSum_set, levelSum_def, hd]
      have := innerSum_del hdnodup hc
      simp only [Option.getD_some]
      omega
    · intro l hl
      exact levelSum_set_ne M L l _ hl
  · rw [if_neg h1]
    refine ⟨⟨alistKeys_set_nodup _ hnodup, ?_, ?_⟩, ?_, ?_⟩
    · intro p hp
      rcases alistMem_set hp with he | hm
      · rw [he]; exact alistKeys_set_nodup _ hdnodup
      · exact hinner p hm
    · intro p hp q hq
      rcases alistMem_set hp with he | hm
      · rw [he] at hq
        rcases alistMem_set hq with he' | hm'
        · rw [he']; simp; omega
        · exact hcounts (L, d) hdmem q hm'
      · exact hcounts p hm q hq
    · rw [levelSum_set, levelSum_def, hd]
      have := innerSum_set_present (c - 1) hdnodup hc
      simp only [Option.getD_some]
      omega
    · intro l hl
      exact levelSum_set_ne M L l _ hl

/-- Effect of `__update_bin_type_distribution_map 0` (new-bag branch): one
bin is added at level `item_size`; every other level sum is unchanged. -/
theorem update_map_newbag (cap item_size : Nat) (M : OuterMap) (key : String)
    (hsz : item_size ≤ cap) (hwf : bp_map_wf M) :
    bp_map_wf (update_bin_type_distribution_map cap item_size M 0 key) ∧
    levelSum (update_bin_type_distribution_map cap item_size M 0 key) item_size =
      levelSum M item_size + 1 ∧
    ∀ l, l ≠ item_size →
      levelSum (update_bin_type_distribution_map cap item_size M 0 key) l = levelSum M l := by
  unfold update_bin_type_distribution_map
  rw [if_neg (by omega), if_neg (by simp), if_neg (by simp), if_pos rfl]
  exact outer_bump M item_size (toString item_size) hwf

/-- Effect of the migration branch of `__update_bin_type_distribution_map`
(placing into an existing bin at level `target`): one bin moves from level
`target` to level `target + item_size`; every other level sum is unchanged.
Requires the key to be one of the level's keys, as `np.random.choice`
guarantees. -/
theorem update_map_migrate (cap item_size : Nat) (M : OuterMap) (target : Nat) (key : String)
    (htar : 0 < target) (hsum : target + item_size ≤ cap) (hpos : 0 < item_size)
    (hwf : bp_map_wf M)
    (hne : ((alistGet M target).getD []) ≠ [])
    (hkey : key ∈ alistKeys ((alistGet M target).getD [])) :
    bp_map_wf (update_bin_type_distribution_map cap item_size M target key) ∧
    levelSum (update_bin_type_distribution_map cap item_size M target key) target + 1 =
      levelSum M target ∧
    levelSum (update_bin_type_distribution_map cap item_size M target key) (target + item_size) =
      levelSum M (target + item_size) + 1 ∧
    ∀ l, l ≠ target → l ≠ target + item_size →
      levelSum (update_bin_type_distribution_map cap item_size M target key) l = levelSum M l := by
  obtain ⟨d0, hd0⟩ : ∃ d0, alistGet M target = some d0 := by
    cases hg : alistGet M target with
    | none => rw [hg] at hne; simp at hne
    | some d0 => exact ⟨d0, rfl⟩
  rw [hd0] at hne hkey
  simp only [Option.getD_some] at hne hkey
  obtain ⟨c, hc⟩ := alistGet_isSome_of_mem_keys hkey
  have hc1 : 1 ≤ c :=
    hwf.2.2 (target, d0) (alistGet_mem hd0) (key, c) (alistGet_mem hc)
  unfold update_bin_type_distribution_map
  rw [if_neg (by omega)]
  rw [if_neg (by rw [hd0]; simp)]
  rw [if_neg (by rw [hd0]; simp [List.length_eq_zero, hne])]
  rw [if_neg (by omega)]
  rw [hd0]
  simp only [Option.getD_some]
  rw [hc]
  simp only
  rw [if_neg (by omega)]
  have hdrop := outer_drop M target key d0 c hwf hd0 hc
  set M1 := if c = 1 then alistSet M target (alistDel d0 key)
            else alistSet M target (alistSet d0 key (c - 1)) with hM1
  have hbump := outer_bump M1 (target + item_size)
      (update_key_for_bin_type_distribution_map key item_size) hdrop.1
  refine ⟨hbump.1, ?_, ?_, ?_⟩
  · have h1 := hbump.2.2 target (by omega)
    rw [h1]
    exact hdrop.2.1
  · rw [hbump.2.1]
    rw [hdrop.2.2 (target + item_size) (by omega)]
  · intro l hl1 hl2
    rw [hbump.2.2 l hl2]
    exact hdrop.2.2 l hl1

/-- Inductive invariant of the strict bin-packing engine: the configuration
is fixed, the pending item is in the configured support, the distribution
map is well-formed, and for every in-range level the map's summed counts
equal `num_bins_levels`. -/
theorem bp_reachable_invariant (cap : Nat) (sizes : List Nat) (horizon : Nat)
    (hpos : ∀ i ∈ sizes, 0 < i) (s : BinPackingState)
    (h : BPReachable cap sizes horizon s) :
    s.bag_capacity = cap ∧ s.item_size ∈ sizes ∧ bp_map_wf s.bin_type_distribution_map ∧
      ∀ l, l < s.bag_capacity →
        (levelSum s.bin_type_distribution_map l : Int) = s.num_bins_levels l := by
  induction h with
  | reset item hitem =>
    refine ⟨rfl, hitem, ⟨List.nodup_nil, by simp [bp_reset], by simp [bp_reset]⟩, ?_⟩
    intro l _
    simp [bp_reset, levelSum, alistGet_nil, innerSum]
  | step s action key next_item s' reward doneFlag _ hnext hkey hstep ih =>
    obtain ⟨hcap, hitem, hwf, hlev⟩ := ih
    by_cases h1 : action ≥ s.bag_capacity
    · simp only [bp_step, h1, if_true] at hstep
      exact Option.noConfusion hstep
    · simp only [bp_step, h1, if_false] at hstep
      by_cases hov : (action : Int) > (s.bag_capacity : Int) - (s.item_size : Int)
      · simp only [hov, if_true] at hstep
        simp only [Option.some.injEq, Prod.mk.injEq] at hstep
        obtain ⟨hs', _, _⟩ := hstep
        subst hs'
        exact ⟨hcap, hnext, hwf, hlev⟩
      · simp only [hov, if_false] at hstep
        by_cases h0 : action = 0
        · simp only [h0, if_true] at hstep
          by_cases hsz : s.item_size < s.bag_capacity
          · simp only [hsz, if_true] at hstep
            simp only [Option.some.injEq, Prod.mk.injEq] at hstep
            obtain ⟨hs', _, _⟩ := hstep
            subst hs'
            have hnb := update_map_newbag s.bag_capacity s.item_size
              s.bin_type_distribution_map key (Nat.le_of_lt hsz) hwf
            refine ⟨hcap, hnext, hnb.1, ?_⟩
            intro l hl
            simp only at hl ⊢
            simp only [updLevels]
            by_cases hls : l = s.item_size
            · have hsz2 : s.item_size < s.bag_capacity := hls ▸ hl
              rw [if_pos hls, hls, hnb.2.1]
              have hlv := hlev s.item_size hsz2
              push_cast
              omega
            · rw [if_neg hls, hnb.2.2 l hls]
              exact hlev l hl
          · simp only [hsz, if_false] at hstep
            exact Option.noConfusion hstep
        · simp only [h0, if_false] at hstep
          by_cases hemp : s.num_bins_levels action = 0
          · simp only [hemp, if_true] at hstep
            simp only [Option.some.injEq, Prod.mk.injEq] at hstep
            obtain ⟨hs', _, _⟩ := hstep
            subst hs'
            exact ⟨hcap, hnext, hwf, hlev⟩
          · simp only [hemp, if_false] at hstep
            simp only [Option.some.injEq, Prod.mk.injEq] at hstep
            obtain ⟨hs', _, _⟩ := hstep
            subst hs'
            have hacap : action < s.bag_capacity := Nat.lt_of_not_le h1
            have hsum : action + s.item_size ≤ s.bag_capacity := by omega
            have hspos : 0 < s.item_size := hpos s.item_size hitem
            have hne : ((alistGet s.bin_type_distribution_map action).getD []) ≠ [] := by
              intro hnil
              apply hemp
              rw [← hlev action hacap, levelSum_def, hnil]
              simp [innerSum]
            have hkmem := hkey ⟨hacap, by omega, h0, hemp, hne⟩
            have hmig := update_map_migrate s.bag_capacity s.item_size
              s.bin_type_distribution_map action key (Nat.pos_of_ne_zero h0) hsum hspos
              hwf hne hkmem
            refine ⟨hcap, hnext, hmig.1, ?_⟩
            intro l hl
            simp only at hl ⊢
            by_cases hfull : action + s.item_size = s.bag_capacity
            · rw [if_pos hfull]
              simp only [updLevels]
              by_cases hla : l = action
              · rw [if_pos hla, hla]
                have h2 := hmig.2.1
                have h3 := hlev action hacap
                omega
              · have hls : l ≠ action + s.item_size := by omega
                rw [if_neg hla, hmig.2.2.2 l hla hls]
                exact hlev l hl
            · rw [if_neg hfull]
              simp only [updLevels]
              by_cases hla : l = action
              · rw [if_pos hla, if_neg (show ¬ action = action + s.item_size by omega), hla]
                have h2 := hmig.2.1
                have h3 := hlev action hacap
                omega
              · rw [if_neg hla]
                by_cases hls : l = action + s.item_size
                · have hl2 : action + s.item_size < s.bag_capacity := hls ▸ hl
                  rw [if_pos hls, hls, hmig.2.2.1]
                  have h3 := hlev (action + s.item_size) hl2
                  push_cast
                  omega
                · rw [if_neg hls, hmig.2.2.2 l hla hls]
                  exact hlev l hl

/-! ## Claim theorems -/

/-- C1: for the strict bin-packing engine with `bag_capacity 9`,
`item_sizes [2, 3]`, `time_horizon 3` and a random stream drawing the item
sequence [2, 3, 2], the action sequence [0, 0, 2] after `reset` yields
rewards −7, −6, +2; after step 3, `num_bins_levels[2]` has gone from 1 to 0,
`num_bins_levels[4]` from 0 to 1, and the terminal flag is true.  The key
`np.random.choice` draws in step 3 is forced: the level-2 inner dict of
`c1_s2` is the singleton `{"2": 1}` (fifth conjunct). -/
theorem C1_strict_engine_concrete_episode :
    bp_out_reward (bp_step c1_s0 0 "" 3) = some (-7) ∧
    bp_out_done (bp_step c1_s0 0 "" 3) = some false ∧
    bp_out_reward (bp_step c1_s1 0 "" 2) = some (-6) ∧
    bp_out_done (bp_step c1_s1 0 "" 2) = some false ∧
    alistKeys ((alistGet c1_s2.bin_type_distribution_map 2).getD []) = ["2"] ∧
    bp_out_reward (bp_step c1_s2 2 "2" 2) = some 2 ∧
    bp_out_done (bp_step c1_s2 2 "2" 2) = some true ∧
    c1_s2.num_bins_levels 2 = 1 ∧ c1_s3.num_bins_levels 2 = 0 ∧
    c1_s2.num_bins_levels 4 = 0 ∧ c1_s3.num_bins_levels 4 = 1 := by
  decide

/-- C2: for every reachable state of the strict bin-packing engine (any
configuration whose item sizes are positive) and every fill level `l` of
the `num_bins_levels` array (`l < bag_capacity`), the counts summed over all
composition keys at level `l` in `bin_type_distribution_map` equal
`num_bins_levels[l]`.  Reachability (`BPReachable`) is closure under `reset`
and `step`, so the consistency is preserved by both, including placements
that fill a bin to capacity (whose map entry lands at level `bag_capacity`,
outside the `num_bins_levels` index range). -/
theorem C2_distribution_map_consistency (cap : Nat) (sizes : List Nat) (horizon : Nat)
    (hpos : ∀ i ∈ sizes, 0 < i) (s : BinPackingState)
    (h : BPReachable cap sizes horizon s) :
    ∀ l, l < s.bag_capacity →
      (levelSum s.bin_type_distribution_map l : Int) = s.num_bins_levels l :=
  (bp_reachable_invariant cap sizes horizon hpos s h).2.2.2

/-- Witness for C2 at a concrete reachable state. -/
theorem C2_distribution_map_consistency_witness :
    (levelSum (bp_reset 9 [2, 3] 1000 2).bin_type_distribution_map 4 : Int) =
      (bp_reset 9 [2, 3] 1000 2).num_bins_levels 4 :=
  C2_distribution_map_consistency 9 [2, 3] 1000 (by decide) _
    (BPReachable.reset 2 (by decide)) 4 (by decide)

/-- C9: in the strict engine, a step through the overflow branch or the
empty-level branch leaves `num_bins_levels`, `num_full_bags`,
`bin_type_distribution_map` and `waste` untouched (the record update below
mentions every field that changes: `step_count`, `total_reward`,
`time_remaining`, `item_size`), returns reward `BIG_NEG_REWARD - waste`, and
sets the terminal flag. -/
theorem C9_strict_invalid_action_frame (s : BinPackingState) (action : Nat) (key : String)
    (next_item : Nat) (hact : action < s.bag_capacity)
    (hinv : (action : Int) > (s.bag_capacity : Int) - (s.item_size : Int) ∨
            ((action : Int) ≤ (s.bag_capacity : Int) - (s.item_size : Int) ∧ action ≠ 0 ∧
              s.num_bins_levels action = 0)) :
    bp_step s action key next_item =
      some ({ s with step_count := s.step_count + 1
                     total_reward := s.total_reward + (BIG_NEG_REWARD - s.waste)
                     time_remaining := s.time_remaining - 1
                     item_size := next_item },
            BIG_NEG_REWARD - s.waste, true) := by
  unfold bp_step
  rw [if_neg (Nat.not_le.mpr hact)]
  rcases hinv with hov | ⟨hle, h0, hemp⟩
  · rw [if_pos hov]
    rfl
  · rw [if_neg (not_lt.mpr hle), if_neg h0, if_pos hemp]
    rfl

/-- Witness for C9 on a concrete state and overflow action. -/
theorem C9_strict_invalid_action_frame_witness :
    bp_step (bp_reset 9 [2, 3] 7 2) 8 "" 3 =
      some ({ bp_reset 9 [2, 3] 7 2 with
                step_count := (bp_reset 9 [2, 3] 7 2).step_count + 1
                total_reward := (bp_reset 9 [2, 3] 7 2).total_reward +
                  (BIG_NEG_REWARD - (bp_reset 9 [2, 3] 7 2).waste)
                time_remaining := (bp_reset 9 [2, 3] 7 2).time_remaining - 1
                item_size := 3 },
            BIG_NEG_REWARD - (bp_reset 9 [2, 3] 7 2).waste, true) :=
  C9_strict_invalid_action_frame (bp_reset 9 [2, 3] 7 2) 8 "" 3 (by decide)
    (Or.inl (by decide))

/-- C4 (code evaluated at the failing input): the incremental-waste engine
cannot exhibit the claimed behaviour because its `step` never returns.  Its
`self.__get_item` / `self.__update_bin_type_distribution_map` calls
name-mangle to `_BinPackingIncrementalWasteGymEnvironment__...`, attributes
that do not exist, so every call — the overflow and empty-level branches
included, which fall through to `self.item_size = self.__get_item()` at
line 365 — raises `AttributeError` (first conjunct: `bpiw_step` is `none`
on every state and action).  The strict variant behaves exactly as the
claim says on the same invalid input (remaining conjuncts: reward
`BIG_NEG_REWARD - waste = -100`, terminal flag set). -/
theorem C4_incremental_waste_step_raises :
    (∀ (s : BinPackingState) (action : Nat), bpiw_step s action = none) ∧
    bp_out_reward (bp_step (bp_reset 9 [2, 3] 1000 2) 8 "" 2) = some (-100) ∧
    bp_out_done (bp_step (bp_reset 9 [2, 3] 1000 2) 8 "" 2) = some true := by
  refine ⟨?_, by decide, by decide⟩
  intro s action
  unfold bpiw_step
  split
  · rfl
  · split
    · rfl
    · split
      · rfl
      · split
        · rfl
        · rfl

/-- C3 (code evaluated at the failing inputs): the skip action
`action = offline_count` behaves as claimed only in
`OnlineGraphGymEnvironment` (third conjunct: reward 0, sentinel −1 appended,
matched vector unchanged, normal return).  In
`BipartiteMatchingGymEnvironment` (`environment.py`) the subscript
`list_matched_offline[action]` is evaluated **before** the
`action == offline` branch and raises `IndexError` (first conjunct: the step
raises, its skip branch is dead code).  In
`BipartiteMatchingGymEnvironment_UpperTriangle` the skip branch executes
`pdb.set_trace()` and suspends into the debugger (second conjunct: the
suspension flag of the model is set). -/
theorem C3_skip_action_evaluation :
    bm_step (bm_reset 2 2 5 [[], [], [], []] 0) 2 0 = none ∧
    (ut_step ⟨2, 2, 2, ut_edges 2 2, 2, 0, [0], [], [0, 0], 1⟩ 2).map
        (fun o => (o.2.2.1, o.2.2.2.2)) = some (0, true) ∧
    og_step ⟨2, 2, 2, [[2], [3], [0], [1]], 2, 0, [0], [], [0, 0], 1⟩ 2 =
      some (⟨2, 2, 2, [[2], [3], [0], [1]], 1, 0, [0], [-1], [0, 0], 1⟩, 0, false) := by
  decide

/-- C5 counterexample: in `BipartiteMatchingGymEnvironment`
(`environment.py`) there is no adjacency check and no sentinel recording:
with an empty edge list (action 0 is not adjacent to online type 0) and
`matched = [0, 0]`, `step(0)` returns reward 1 and sets `matched[0]`,
where the claim demands reward 0 and an unchanged matched vector. -/
theorem C5_counterexample_no_adjacency_check :
    ((bm_reset 2 2 5 [[], [], [], []] 0).edges[(bm_reset 2 2 5 [[], [], [], []] 0).online_type]? =
      some ([] : List Int)) ∧
    bm_step (bm_reset 2 2 5 [[], [], [], []] 0) 0 1 =
      some (⟨2, 2, 5, [[], [], [], []], 4, 1, 1, [1, 0], 1⟩, 1, false) := by
  decide

/-- C5 (amended, proved for the `OnlineGraphGymEnvironment`-based variants):
for an in-bounds action `a < offline`, if `a` is not adjacent to the current
`online_type` (membership of `a + online` in `edges[online_type]`, exactly
the test `step` performs) or `matched[a]` is already set, the step returns
reward 0, appends the sentinel −1 to `rl_matching`, and leaves the matched
vector unchanged; reward 1 together with `matched[a] := 1` happens exactly
when `a` is an unmatched adjacent neighbor.
(`BipartiteMatchingGymEnvironment` of `environment.py` performs no adjacency
test and records no sentinel — see the counterexample.) -/
theorem C5_illegal_actions_absorbed (s : OGState) (action : Nat) (nbrs : List Int) (mv : Nat)
    (hact : action < s.offline)
    (hnbrs : s.edges[s.online_type]? = some nbrs)
    (hmv : s.matched_offline_list[action]? = some mv) :
    ((((action : Int) + (s.online : Int)) ∉ nbrs ∨ mv = 1) →
      og_step s action =
        some ({ s with rl_matching := s.rl_matching ++ [-1]
                       time_remaining := s.time_remaining - 1 },
              0, decide (s.time_remaining - 1 = 0))) ∧
    ((((action : Int) + (s.online : Int)) ∈ nbrs ∧ mv ≠ 1) →
      og_step s action =
        some ({ s with rl_matching := s.rl_matching ++ [(action : Int) + (s.online : Int)]
                       matched_offline_list := s.matched_offline_list.set action 1
                       time_remaining := s.time_remaining - 1 },
              1, decide (s.time_remaining - 1 = 0))) := by
  have h1 : ¬ action > s.offline := by omega
  have h2 : ¬ action = s.offline := by omega
  constructor
  · intro hcase
    unfold og_step
    rw [if_neg h1, if_neg h2, hnbrs]
    dsimp only
    rcases hcase with hadj | hm1
    · rw [if_pos hadj]
    · by_cases hadj : ((action : Int) + (s.online : Int)) ∉ nbrs
      · rw [if_pos hadj]
      · rw [if_neg hadj, hmv]
        dsimp only
        rw [if_pos hm1]
  · intro ⟨hadj, hm1⟩
    unfold og_step
    rw [if_neg h1, if_neg h2, hnbrs]
    dsimp only
    rw [if_neg (not_not_intro hadj), hmv]
    dsimp only
    rw [if_neg hm1]

/-- Witness for the amended C5: action 1 is not adjacent to online type 0
(1 + 2 = 3 is not in `edges[0] = [2]`), so the step absorbs it with reward 0
and the sentinel −1. -/
theorem C5_illegal_actions_absorbed_witness :
    og_step ⟨2, 2, 2, [[2], [3], [0], [1]], 2, 0, [0], [], [0, 0], 1⟩ 1 =
      some (⟨2, 2, 2, [[2], [3], [0], [1]], 1, 0, [0], [-1], [0, 0], 1⟩, 0, false) :=
  (C5_illegal_actions_absorbed ⟨2, 2, 2, [[2], [3], [0], [1]], 2, 0, [0], [], [0, 0], 1⟩
    1 [2] 0 (by decide) (by decide) (by decide)).1 (Or.inl (by decide))

/-- `OnlineGraphGymEnvironment.step` never changes `online_type` (drawing
the next arrival is left to the subclasses). -/
theorem og_step_online_type (s : OGState) (action : Nat) (s1 : OGState) (reward : Int)
    (doneFlag : Bool) (h : og_step s action = some (s1, reward, doneFlag)) :
    s1.online_type = s.online_type := by
  unfold og_step at h
  by_cases h1 : action > s.offline
  · rw [if_pos h1] at h
    exact Option.noConfusion h
  · rw [if_neg h1] at h
    by_cases h2 : action = s.offline
    · rw [if_pos h2] at h
      dsimp only at h
      simp only [Option.some.injEq, Prod.mk.injEq] at h
      rw [← h.1]
    · rw [if_neg h2] at h
      cases hg : s.edges[s.online_type]? with
      | none => rw [hg] at h; exact Option.noConfusion h
      | some nbrs =>
        rw [hg] at h
        dsimp only at h
        by_cases hadj : ((action : Int) + (s.online : Int)) ∉ nbrs
        · rw [if_pos hadj] at h
          simp only [Option.some.injEq, Prod.mk.injEq] at h
          rw [← h.1]
        · rw [if_neg hadj] at h
          cases hm : s.matched_offline_list[action]? with
          | none => rw [hm] at h; exact Option.noConfusion h
          | some m =>
            rw [hm] at h
            dsimp only at h
            by_cases hm1 : m = 1
            · rw [if_pos hm1] at h
              simp only [Option.some.injEq, Prod.mk.injEq] at h
              rw [← h.1]
            · rw [if_neg hm1] at h
              simp only [Option.some.injEq, Prod.mk.injEq] at h
              rw [← h.1]

/-- C6 counterexample: `StochasticBipartiteMatchingGymEnvironment.step`
draws the next online type and builds a fresh observation even on the step
where the terminal flag becomes true: from `time_remaining = 1`, the result
is terminal, yet the observation is present (`isSome`) and `online_type` has
been re-drawn (0 → 1). -/
theorem C6_counterexample_stochastic_terminal_draw :
    (sbm_step ⟨2, 2, 2, [[2], [3], [0], [1]], 1, 0, [0], [], [0, 0], 1⟩ 0 1).map
        (fun o => (o.1.online_type, o.2.1.isSome, o.2.2.2)) = some (1, true, true) ∧
    (⟨2, 2, 2, [[2], [3], [0], [1]], 1, 0, [0], [], [0, 0], 1⟩ : OGState).online_type = 0 := by
  decide

/-- C6 (amended, proved for the permutation variant
`OnlineBipartiteMatchingGymEnvironment` and the upper-triangle engine): on
the step where the terminal flag becomes true, no further online type is
drawn (`online_type` is unchanged) and the returned observation is `none`.
(The stochastic variant and `environment.py`'s engine instead draw a fresh
type and return a fresh state vector — see the counterexample.) -/
theorem C6_terminal_observation_absent :
    (∀ (s : OBMState) (action : Nat) (s1 : OGState) (reward : Int),
       og_step s.toOGState action = some (s1, reward, true) →
       obm_step s action = some ({ s with toOGState := s1 }, none, reward, true) ∧
       s1.online_type = s.toOGState.online_type) ∧
    (∀ (s : OGState) (action : Nat) (out : OGState × Option (List ℚ) × Int × Bool × Bool),
       ut_step s action = some out → out.2.2.2.1 = true →
       out.2.1 = none ∧ out.1.online_type = s.online_type) := by
  constructor
  · intro s action s1 reward hstep
    constructor
    · unfold obm_step
      rw [hstep]
      rfl
    · exact og_step_online_type s.toOGState action s1 reward true hstep
  · intro s action out hout hdone
    unfold ut_step at hout
    by_cases h1 : action > s.offline
    · rw [if_pos h1] at hout
      exact Option.noConfusion hout
    · rw [if_neg h1] at hout
      have hbody : ∀ (s1 : OGState) (reward : Int) (suspended : Bool),
          (if action = s.offline then
             some ({ s with rl_matching := s.rl_matching ++ [-1] }, (0 : Int), true)
           else
             match s.edges[s.online_type]? with
             | none => none
             | some nbrs =>
               if ((action : Int) + (s.online : Int)) ∉ nbrs then
                 some ({ s with rl_matching := s.rl_matching ++ [-1] }, 0, false)
               else
                 match s.matched_offline_list[action]? with
                 | none => none
                 | some m =>
                   if m = 1 then
                     some ({ s with rl_matching := s.rl_matching ++ [-1] }, 0, false)
                   else
                     some ({ s with
                               rl_matching := s.rl_matching ++ [(action : Int) + (s.online : Int)]
                               matched_offline_list := s.matched_offline_list.set action 1 },
                           1, false)) = some (s1, reward, suspended) →
          s1.online_type = s.online_type := by
        intro s1 reward suspended hb
        by_cases h2 : action = s.offline
        · rw [if_pos h2] at hb
          simp only [Option.some.injEq, Prod.mk.injEq] at hb
          rw [← hb.1]
        · rw [if_neg h2] at hb
          cases hg : s.edges[s.online_type]? with
          | none => rw [hg] at hb; exact Option.noConfusion hb
          | some nbrs =>
            rw [hg] at hb
            dsimp only at hb
            by_cases hadj : ((action : Int) + (s.online : Int)) ∉ nbrs
            · rw [if_pos hadj] at hb
              simp only [Option.some.injEq, Prod.mk.injEq] at hb
              rw [← hb.1]
            · rw [if_neg hadj] at hb
              cases hm : s.matched_offline_list[action]? with
              | none => rw [hm] at hb; exact Option.noConfusion hb
              | some m =>
                rw [hm] at hb
                dsimp only at hb
                by_cases hm1 : m = 1
                · rw [if_pos hm1] at hb
                  simp only [Option.some.injEq, Prod.mk.injEq] at hb
                  rw [← hb.1]
                · rw [if_neg hm1] at hb
                  simp only [Option.some.injEq, Prod.mk.injEq] at hb
                  rw [← hb.1]
      cases hbeq : (if action = s.offline then
             some ({ s with rl_matching := s.rl_matching ++ [-1] }, (0 : Int), true)
           else
             match s.edges[s.online_type]? with
             | none => none
             | some nbrs =>
               if ((action : Int) + (s.online : Int)) ∉ nbrs then
                 some ({ s with rl_matching := s.rl_matching ++ [-1] }, 0, false)
               else
                 match s.matched_offline_list[action]? with
                 | none => none
                 | some m =>
                   if m = 1 then
                     some ({ s with rl_matching := s.rl_matching ++ [-1] }, 0, false)
                   else
                     some ({ s with
                               rl_matching := s.rl_matching ++ [(action : Int) + (s.online : Int)]
                               matched_offline_list := s.matched_offline_list.set action 1 },
                           1, false)) with
      | none => rw [hbeq] at hout; exact Option.noConfusion hout
      | some triple =>
        obtain ⟨s1, reward, suspended⟩ := triple
        rw [hbeq] at hout
        dsimp only at hout
        have hot : s1.online_type = s.online_type := hbody s1 reward suspended hbeq
        by_cases hdflag : decide (s1.time_remaining - 1 = 0) = true
        · rw [if_pos hdflag] at hout
          simp only [Option.some.injEq] at hout
          rw [← hout]
          exact ⟨rfl, hot⟩
        · rw [if_neg hdflag] at hout
          exfalso
          by_cases hpos2 : (0 : Int) ≤ (s1.time_horizon : Int) - (s1.time_remaining - 1)
          · rw [if_pos hpos2] at hout
            cases hg2 : s1.edges[((s1.time_horizon : Int) - (s1.time_remaining - 1)).toNat]? with
            | none =>
              rw [hg2] at hout
              exact Option.noConfusion hout
            | some nbrs2 =>
              rw [hg2] at hout
              dsimp only at hout
              cases ha2 : buildAdjacentList s1.offline s1.online nbrs2 with
              | none =>
                rw [ha2] at hout
                exact Option.noConfusion hout
              | some adj =>
                rw [ha2] at hout
                dsimp only at hout
                simp only [Option.some.injEq] at hout
                rw [← hout] at hdone
                simp only at hdone
                exact hdflag hdone
          · rw [if_neg hpos2] at hout
            exact Option.noConfusion hout

/-- Witness for the amended C6: a terminal permutation-variant step returns
observation `none` and leaves `online_type` untouched. -/
theorem C6_terminal_observation_absent_witness :
    obm_step ⟨⟨2, 2, 2, [[2], [3], [0], [1]], 1, 0, [0], [], [0, 0], 1⟩, [0, 1]⟩ 0 =
      some (⟨⟨2, 2, 2, [[2], [3], [0], [1]], 0, 0, [0], [2], [1, 0], 1⟩, [0, 1]⟩,
            none, 1, true) ∧
    (⟨2, 2, 2, [[2], [3], [0], [1]], 0, 0, [0], [2], [1, 0], 1⟩ : OGState).online_type =
      (⟨2, 2, 2, [[2], [3], [0], [1]], 1, 0, [0], [], [0, 0], 1⟩ : OGState).online_type :=
  C6_terminal_observation_absent.1
    ⟨⟨2, 2, 2, [[2], [3], [0], [1]], 1, 0, [0], [], [0, 0], 1⟩, [0, 1]⟩ 0
    ⟨2, 2, 2, [[2], [3], [0], [1]], 0, 0, [0], [2], [1, 0], 1⟩ 1 (by decide)

/-- C10: whenever construction of a file-based matching engine succeeds,
the graph file's header count `n` (third token of line 1) overrides the
configured `offline`, `online` and `time_horizon`: all three equal `n`
afterwards, whatever the configuration supplied.  (Every subclass of
`OnlineGraphGymEnvironment` calls this `__init__` unchanged and never
rewrites these three fields.) -/
theorem C10_graph_file_overrides_config (cfg_offline cfg_online cfg_time_horizon : Int)
    (cfg_edges : List (List Int)) (lines : List (List Int)) (st : OGInit)
    (hinit : og_init cfg_offline cfg_online cfg_time_horizon cfg_edges lines = some st) :
    graph_header_n lines = some st.online ∧ st.offline = st.online ∧
      st.time_horizon = st.online := by
  unfold og_init read_graph_from_file at hinit
  unfold graph_header_n
  cases hl1 : lines[1]? with
  | none => rw [hl1] at hinit; exact Option.noConfusion hinit
  | some l1 =>
    rw [hl1] at hinit
    dsimp only at hinit ⊢
    rcases hd : l1.drop 1 with _ | ⟨m, _ | ⟨n, _ | ⟨t, rest⟩⟩⟩
    · rw [hd] at hinit; exact Option.noConfusion hinit
    · rw [hd] at hinit; exact Option.noConfusion hinit
    · rw [hd] at hinit
      dsimp only at hinit ⊢
      cases hfold : (lines.drop 2).foldlM
          (fun (edges : List (List Int)) (line : List Int) =>
            match line.take 2 with
            | [x, y] => do
              let e1 ← pyAppendAt edges (x - 1) ((y - 1) + n)
              pyAppendAt e1 ((y - 1) + n) (x - 1)
            | _ => none)
          (List.replicate (n + n).toNat []) with
      | none => rw [hfold] at hinit; exact Option.noConfusion hinit
      | some edges =>
        rw [hfold] at hinit
        dsimp only at hinit
        simp only [Option.some.injEq] at hinit
        rw [← hinit]
        exact ⟨rfl, rfl, rfl⟩
    · rw [hd] at hinit; exact Option.noConfusion hinit

/-- Witness for C10 on a concrete tokenised graph file with header `n = 3`
and one edge line, constructed with conflicting configuration values. -/
theorem C10_graph_file_overrides_config_witness :
    graph_header_n [[0], [5, 4, 3], [1, 1]] =
      some (⟨3, 3, 3, [[3], [], [], [0], [], []]⟩ : OGInit).online ∧
    (⟨3, 3, 3, [[3], [], [], [0], [], []]⟩ : OGInit).offline =
      (⟨3, 3, 3, [[3], [], [], [0], [], []]⟩ : OGInit).online ∧
    (⟨3, 3, 3, [[3], [], [], [0], [], []]⟩ : OGInit).time_horizon =
      (⟨3, 3, 3, [[3], [], [], [0], [], []]⟩ : OGInit).online :=
  C10_graph_file_overrides_config 100 250 1000 [[7]] [[0], [5, 4, 3], [1, 1]]
    ⟨3, 3, 3, [[3], [], [], [0], [], []]⟩ (by decide)

/-- Python `min(xs, key=f)` semantics for the fold in
`__get_nearest_valid_action`: over a strictly increasing candidate list the
fold returns a member whose key is at most every member's key, and on key
ties it returns the smallest (i.e., first) candidate. -/
theorem pymin_first_min (f : Nat → Nat) :
    ∀ (xs : List Nat) (b : Nat), (b :: xs).Pairwise (· < ·) →
      (xs.foldl (fun u y => if f y < f u then y else u) b) ∈ b :: xs ∧
      ∀ y ∈ b :: xs,
        f (xs.foldl (fun u y => if f y < f u then y else u) b) < f y ∨
        (f (xs.foldl (fun u y => if f y < f u then y else u) b) = f y ∧
          xs.foldl (fun u y => if f y < f u then y else u) b ≤ y) := by
  intro xs
  induction xs with
  | nil =>
    intro b _
    refine ⟨List.mem_cons_self b [], ?_⟩
    intro y hy
    rw [List.mem_singleton] at hy
    subst hy
    exact Or.inr ⟨rfl, le_refl _⟩
  | cons y ys ih =>
    intro b hs
    rw [List.pairwise_cons] at hs
    obtain ⟨hb, hys⟩ := hs
    simp only [List.foldl_cons]
    by_cases hfy : f y < f b
    · rw [if_pos hfy]
      have hres := ih y hys
      refine ⟨List.mem_cons_of_mem b hres.1, ?_⟩
      intro z hz
      rcases List.mem_cons.mp hz with hzb | hzm
      · subst hzb
        left
        rcases hres.2 y (List.mem_cons_self y ys) with hlt | ⟨heq, _⟩
        · exact lt_trans hlt hfy
        · rw [heq]; exact hfy
      · exact hres.2 z hzm
    · rw [if_neg hfy]
      have hfy' : f b ≤ f y := le_of_not_lt hfy
      rw [List.pairwise_cons] at hys
      obtain ⟨hy, hys'⟩ := hys
      have hbys : (b :: ys).Pairwise (· < ·) := by
        rw [List.pairwise_cons]
        exact ⟨fun z hz => hb z (List.mem_cons_of_mem y hz), hys'⟩
      have hres := ih b hbys
      constructor
      · rcases List.mem_cons.mp hres.1 with he | hm
        · rw [he]; exact List.mem_cons_self b (y :: ys)
        · exact List.mem_cons_of_mem b (List.mem_cons_of_mem y hm)
      · intro z hz
        rcases List.mem_cons.mp hz with hzb | hzm
        · subst hzb
          exact hres.2 z (List.mem_cons_self z ys)
        · rcases List.mem_cons.mp hzm with hzy | hzys
          · subst hzy
            rcases hres.2 b (List.mem_cons_self b ys) with hlt | ⟨heq, hle⟩
            · left; exact lt_of_lt_of_le hlt hfy'
            · rcases lt_or_eq_of_le (heq ▸ hfy') with hlt | heq2
              · left; exact hlt
              · right
                refine ⟨heq2, ?_⟩
                exact le_of_lt (lt_of_le_of_lt hle (hb z (List.mem_cons_self z ys)))
          · exact hres.2 z (List.mem_cons_of_mem b hzys)

/-- The candidate list of `__get_nearest_valid_action` is strictly
increasing. -/
theorem na_valid_actions_pairwise (s : BinPackingState) :
    (na_valid_actions s).Pairwise (· < ·) := by
  unfold na_valid_actions
  exact (List.pairwise_lt_range' 1 (s.bag_capacity - 1) 1 (by omega)).sublist
    (List.filter_sublist _)

/-- Membership in the candidate list of `__get_nearest_valid_action`. -/
theorem na_valid_actions_mem (s : BinPackingState) (x : Nat) :
    x ∈ na_valid_actions s ↔
      (1 ≤ x ∧ x < s.bag_capacity ∧ 0 < s.num_bins_levels x ∧
        (x : Int) ≤ (s.bag_capacity : Int) - (s.item_size : Int)) := by
  unfold na_valid_actions
  rw [List.mem_filter]
  constructor
  · intro ⟨hr, hp⟩
    rw [List.mem_range'_1] at hr
    simp only [Bool.and_eq_true, decide_eq_true_eq] at hp
    exact ⟨hr.1, by omega, hp.1, hp.2⟩
  · intro ⟨h1, h2, h3, h4⟩
    refine ⟨?_, ?_⟩
    · rw [List.mem_range'_1]
      omega
    · simp only [Bool.and_eq_true, decide_eq_true_eq]
      exact ⟨h3, h4⟩

/-- C7: in the near-action variant, a valid submitted action is applied
unchanged, and an invalid one (overflow or empty target level, exactly the
`some false` outcomes of `__is_action_valid`) is replaced by the member of
`{l : 1 ≤ l < capacity, levels[l] > 0, l ≤ capacity − item_size}` (the first
conjunct characterises `na_valid_actions` as exactly that set) minimising
`|l − a|`, ties broken toward the smaller level, falling back to action 0
(open a new bin) when the set is empty. -/
theorem C7_near_action_repair (s : BinPackingState) (a : Nat) :
    (∀ x, x ∈ na_valid_actions s ↔
      (1 ≤ x ∧ x < s.bag_capacity ∧ 0 < s.num_bins_levels x ∧
        (x : Int) ≤ (s.bag_capacity : Int) - (s.item_size : Int))) ∧
    (na_is_action_valid s a = some true → na_applied_action s a = some a) ∧
    (na_is_action_valid s a = some false →
      na_applied_action s a = some (na_get_nearest_valid_action s a) ∧
      (na_valid_actions s = [] → na_get_nearest_valid_action s a = 0) ∧
      (∀ l ∈ na_valid_actions s,
        na_get_nearest_valid_action s a ∈ na_valid_actions s ∧
        (((na_get_nearest_valid_action s a : Int) - (a : Int)).natAbs <
            ((l : Int) - (a : Int)).natAbs ∨
          (((na_get_nearest_valid_action s a : Int) - (a : Int)).natAbs =
              ((l : Int) - (a : Int)).natAbs ∧
            na_get_nearest_valid_action s a ≤ l)))) := by
  refine ⟨na_valid_actions_mem s, ?_, ?_⟩
  · intro hv
    unfold na_applied_action
    rw [hv]
  · intro hv
    refine ⟨by unfold na_applied_action; rw [hv], ?_, ?_⟩
    · intro hnil
      unfold na_get_nearest_valid_action
      rw [hnil]
    · intro l hl
      unfold na_get_nearest_valid_action
      cases hva : na_valid_actions s with
      | nil => rw [hva] at hl; exact absurd hl (List.not_mem_nil l)
      | cons x xs =>
        have hpw : (x :: xs).Pairwise (· < ·) := hva ▸ na_valid_actions_pairwise s
        have hmin := pymin_first_min (fun z => ((z : Int) - (a : Int)).natAbs) xs x hpw
        rw [hva] at hl
        dsimp only
        exact ⟨hmin.1, hmin.2 l hl⟩

/-- Witness for C7: with bins open at levels 2 and 3, item size 2 and
capacity 9, the invalid (overflow) action 8 is repaired to level 3, the
valid set's member closest to 8. -/
theorem C7_near_action_repair_witness :
    na_applied_action
        ⟨9, [2, 3], 1000, 5, 2, 0,
          (fun l => if l = 2 then 1 else if l = 3 then 1 else 0), 0, 0, [], 0⟩ 8 =
      some (na_get_nearest_valid_action
        ⟨9, [2, 3], 1000, 5, 2, 0,
          (fun l => if l = 2 then 1 else if l = 3 then 1 else 0), 0, 0, [], 0⟩ 8) ∧
    na_get_nearest_valid_action
        ⟨9, [2, 3], 1000, 5, 2, 0,
          (fun l => if l = 2 then 1 else if l = 3 then 1 else 0), 0, 0, [], 0⟩ 8 = 3 :=
  ⟨((C7_near_action_repair
      ⟨9, [2, 3], 1000, 5, 2, 0,
        (fun l => if l = 2 then 1 else if l = 3 then 1 else 0), 0, 0, [], 0⟩ 8).2.2
      (by decide)).1,
   by decide⟩

/-- Characterisation of the valid-action accumulation loop of
`__get_valid_actions`: when every neighbour id is in range, the loop never
raises and collects `y − online` for exactly the unmatched neighbours, in
order. -/
theorem matching_fold_chars (matched : List Nat) (online : Nat) (nbrs : List Int)
    (hb : ∀ y ∈ nbrs, (online : Int) ≤ y ∧ y < (online : Int) + (matched.length : Int)) :
    ∀ acc : List Int,
      nbrs.foldlM
        (fun (acc : List Int) y =>
          match pyIndex matched (y - (online : Int)) with
          | none => none
          | some mv => some (if mv = 0 then acc ++ [y - (online : Int)] else acc)) acc
      = some (acc ++ nbrs.filterMap (fun y =>
          if matched[(y - (online : Int)).toNat]? = some 0 then some (y - (online : Int))
          else none)) := by
  induction nbrs with
  | nil =>
    intro acc
    simp [List.foldlM]
  | cons y ys ih =>
    intro acc
    obtain ⟨hy1, hy2⟩ := hb y (List.mem_cons_self y ys)
    have h0 : (0 : Int) ≤ y - (online : Int) := by omega
    have hlt : (y - (online : Int)).toNat < matched.length := by omega
    have hpy : pyIndex matched (y - (online : Int)) =
        matched[(y - (online : Int)).toNat]? := by
      unfold pyIndex
      rw [if_pos h0]
    obtain ⟨mval, hmval⟩ : ∃ mval, matched[(y - (online : Int)).toNat]? = some mval := by
      rw [List.getElem?_eq_getElem hlt]
      exact ⟨_, rfl⟩
    have hb' : ∀ z ∈ ys, (online : Int) ≤ z ∧ z < (online : Int) + (matched.length : Int) :=
      fun z hz => hb z (List.mem_cons_of_mem y hz)
    have ihy := ih hb'
    rw [List.foldlM_cons, hpy, hmval]
    dsimp only
    rw [List.filterMap_cons]
    by_cases hm0 : mval = 0
    · rw [if_pos hm0]
      rw [hm0] at hmval
      rw [hmval, if_pos rfl]
      simp only [Option.bind_eq_bind, Option.some_bind]
      rw [ihy (acc ++ [y - (online : Int)])]
      rw [List.append_assoc]
      rfl
    · rw [if_neg hm0]
      have hnot : ¬ (matched[(y - (online : Int)).toNat]? = some 0) := by
        rw [hmval]
        simp [hm0]
      rw [if_neg hnot]
      simp only [Option.bind_eq_bind, Option.some_bind]
      exact ihy acc

/-- C8 counterexample: `BipartiteMatchingActionMaskGymEnvironment`
(`environment.py`) does not implement the claimed mask.  After a reset with
no edges (`edges[online_type] = []`, so nothing is adjacent), the mask is
`[1, 0]`: action 0 — which is neither an unmatched adjacent neighbour nor a
skip index — is marked legal (its `__get_valid_actions` appends the literal
`0`, not the skip index), and the mask has length `offline = 2`, so there is
no entry at the skip index `offline_count = 2` at all: the skip action is
not marked legal. -/
theorem C8_counterexample_env_mask :
    bm_action_mask (bm_reset 2 2 5 [[], [], [], []] 0) = some [1, 0] ∧
    (bm_reset 2 2 5 [[], [], [], []] 0).edges[(bm_reset 2 2 5 [[], [], [], []] 0).online_type]? =
      some ([] : List Int) ∧
    (bm_reset 2 2 5 [[], [], [], []] 0).offline = 2 ∧
    ([1, 0] : List Nat)[2]? = none := by
  decide

/-- C8 (amended, proved for the shared `__get_valid_actions` of
`OnlineBipartiteMatchingActionMaskGymEnvironment` and
`BipartiteMatchingActionMaskGymEnvironment_UpperTriangle`): after every
`reset` and `step` the mask is recomputed from the current state, and for
any state whose neighbour ids are in range, the mask marks action `a` legal
(`mask[a] = 1`) iff `a` is an offline vertex adjacent to the current online
arrival (`a + online ∈ edges[online_type]`, the same test `step` uses) and
still unmatched, or `a` is the skip action `offline`; in particular the
skip entry is always 1. -/
theorem C8_matching_mask_iff (edges : List (List Int)) (online_type : Nat)
    (matched : List Nat) (online offline : Nat) (nbrs : List Int)
    (hedges : edges[online_type]? = some nbrs)
    (hlen : matched.length = offline)
    (hb : ∀ y ∈ nbrs, (online : Int) ≤ y ∧ y < (online : Int) + (offline : Int)) :
    ∃ mask, matching_action_mask edges online_type matched online offline = some mask ∧
      mask[offline]? = some 1 ∧
      ∀ a, a ≤ offline →
        (mask[a]? = some 1 ↔
          (a = offline ∨ (((a : Int) + (online : Int)) ∈ nbrs ∧ matched[a]? = some 0))) := by
  have hb' : ∀ y ∈ nbrs, (online : Int) ≤ y ∧ y < (online : Int) + (matched.length : Int) := by
    rw [hlen]
    exact hb
  have hfold := matching_fold_chars matched online nbrs hb' []
  unfold matching_action_mask matching_get_valid_actions
  rw [hedges]
  dsimp only
  rw [hfold]
  simp only [Option.map_some']
  rw [List.nil_append]
  set filt := nbrs.filterMap (fun y =>
      if matched[(y - (online : Int)).toNat]? = some 0 then some (y - (online : Int))
      else none) with hfilt
  refine ⟨_, rfl, ?_, ?_⟩
  · have hr : (List.range (offline + 1))[offline]? = some offline :=
      List.getElem?_range (by omega)
    rw [List.getElem?_map, hr]
    simp only [Option.map_some']
    have hmem : ((offline : Nat) : Int) ∈ filt ++ [(offline : Int)] :=
      List.mem_append.mpr (Or.inr (List.mem_singleton.mpr rfl))
    rw [if_pos hmem]
  · intro a ha
    have hr : (List.range (offline + 1))[a]? = some a := List.getElem?_range (by omega)
    rw [List.getElem?_map, hr]
    simp only [Option.map_some']
    have hiff : ((a : Int) ∈ filt ++ [(offline : Int)]) ↔
        (a = offline ∨ (((a : Int) + (online : Int)) ∈ nbrs ∧ matched[a]? = some 0)) := by
      rw [List.mem_append, List.mem_singleton]
      constructor
      · intro h
        rcases h with hf | he
        · right
          rw [hfilt, List.mem_filterMap] at hf
          obtain ⟨y, hy, hfy⟩ := hf
          by_cases hc : matched[(y - (online : Int)).toNat]? = some 0
          · rw [if_pos hc] at hfy
            have hya : y - (online : Int) = (a : Int) := by injection hfy
            have hy' : y = (a : Int) + (online : Int) := by omega
            constructor
            · rw [← hy']
              exact hy
            · have : (y - (online : Int)).toNat = a := by omega
              rw [← this]
              exact hc
          · rw [if_neg hc] at hfy
            exact Option.noConfusion hfy
        · left
          exact_mod_cast he
      · intro h
        rcases h with he | ⟨hadj, hm⟩
        · right
          exact_mod_cast he
        · left
          rw [hfilt, List.mem_filterMap]
          refine ⟨(a : Int) + (online : Int), hadj, ?_⟩
          have ht : (((a : Int) + (online : Int)) - (online : Int)).toNat = a := by omega
          have hc : matched[(((a : Int) + (online : Int)) - (online : Int)).toNat]? = some 0 := by
            rw [ht]
            exact hm
          rw [if_pos hc]
          congr 1
          omega
    constructor
    · intro hsome
      by_cases hm : (a : Int) ∈ filt ++ [(offline : Int)]
      · exact hiff.mp hm
      · rw [if_neg hm] at hsome
        simp at hsome
    · intro h
      rw [if_pos (hiff.mpr h)]

/-- Witness for the amended C8 on a concrete state: online type 0 of the
2×2 graph with edges 0–0 and 1–1; neighbour 0 is unmatched, so the mask is
[1, 0, 1]: action 0 and the skip action 2 are legal, action 1 is not. -/
theorem C8_matching_mask_iff_witness :
    (matching_action_mask [[2], [3], [0], [1]] 0 [0, 0] 2 2).isSome = true ∧
    ((matching_action_mask [[2], [3], [0], [1]] 0 [0, 0] 2 2).getD [])[2]? = some 1 := by
  obtain ⟨mask, hmask, hskip, _⟩ :=
    C8_matching_mask_iff [[2], [3], [0], [1]] 0 [0, 0] 2 2 [2] (by decide) (by decide)
      (by decide)
  rw [hmask]
  exact ⟨rfl, hskip⟩
